import Mathlib

/-!
Verification development for the openclaw-orchestrator core:
a shallow embedding of the task-graph executor, the retry helper,
the per-node execution path, and the planner response parser,
with theorems checking the specification's statements against them.

Source files embedded: src/executor/executor.ts, src/utils/retry.ts,
src/planner/planner.ts (with its response schema), src/errors.ts.
The task-graph helpers (readyNodes, isComplete, skipDownstream), the
cache key, the registry and the rate limiter are not in the provided
sources; their definitions below are modelled from the specification
and marked as such.
-/

namespace Orchestrator

/-- Node status, from the TaskNode data model: one of
pending, running, done, failed, skipped. -/
inductive Status where
  | pending
  | running
  | done
  | failed
  | skipped
deriving DecidableEq, Repr

/-- TaskResult, the tagged union from src/planner/types.ts as used by the
executor: `{ status: "ok" | "error", output: string }`. -/
inductive TaskResult where
  | ok (output : String)
  | error (output : String)
deriving DecidableEq, Repr

/-- The status tag of a TaskResult, as compared by `result.status === "ok"`. -/
def TaskResult.isOk : TaskResult → Bool
  | .ok _ => true
  | .error _ => false

/-- Per-node config overrides (currently: retry count), `node.config`. -/
structure NodeConfig where
  retries : Option Nat
deriving DecidableEq, Repr

/-- TaskNode from the data model: id, task description, dependencies,
optional agent selector, status, optional result, optional config. -/
structure TaskNode where
  id : String
  task : String
  dependsOn : List String
  assignTo : Option String := none
  status : Status := .pending
  result : Option TaskResult := none
  config : Option NodeConfig := none
deriving DecidableEq, Repr

/-!
Section: Retry helper (src/utils/retry.ts, `withRetry`)

The wrapped operation `fn` is embedded as a function from the (1-based)
attempt number to that attempt's outcome: `.ok v` when the promise
fulfils, `.error e` when it rejects.  The trace records the returned or
thrown value, the sleeps performed between attempts, and how many times
`fn` was invoked.  The `throw lastError` at the end of the source throws
the still-uninitialized `undefined` when the loop body never ran, which
the model renders as `Except.error none`.
-/

/-- Outcome trace of a `withRetry` call: the settled value
(`Except.error none` models `throw undefined`), the list of backoff
delays slept, and the number of invocations of the operation. -/
structure RetryTrace (T : Type) where
  result : Except (Option String) T
  delays : List Nat
  calls : Nat
deriving Repr

/-- The `for (let attempt = 1; attempt <= maxAttempts; attempt++)` loop of
`withRetry`, structured on the number of remaining permitted attempts
(`remaining = maxAttempts - attempt + 1`).  `lastError` threads the
`let lastError: unknown` variable; `none` is its uninitialized state. -/
def withRetryAux {T : Type} (fn : Nat → Except String T) (baseDelayMs maxDelayMs : Nat) :
    Nat → Nat → Option String → RetryTrace T
  | 0, _, lastError => ⟨.error lastError, [], 0⟩
  | remaining + 1, attempt, _ =>
    match fn attempt with
    | .ok v => ⟨.ok v, [], 1⟩
    | .error e =>
      if remaining = 0 then
        ⟨.error (some e), [], 1⟩
      else
        let delay := min (baseDelayMs * 2 ^ (attempt - 1)) maxDelayMs
        let rest := withRetryAux fn baseDelayMs maxDelayMs remaining (attempt + 1) (some e)
        ⟨rest.result, delay :: rest.delays, rest.calls + 1⟩

/-- `withRetry(fn, opts)` from src/utils/retry.ts with the resolved
options `maxAttempts`, `baseDelayMs`, `maxDelayMs` passed explicitly. -/
def withRetry {T : Type} (fn : Nat → Except String T)
    (maxAttempts baseDelayMs maxDelayMs : Nat) : RetryTrace T :=
  withRetryAux fn baseDelayMs maxDelayMs maxAttempts 1 none

/-- A concrete operation failing on attempt 1 and succeeding on attempt 2,
used to witness the retry contract. -/
def retryProbe : Nat → Except String Nat :=
  fun k => if k = 1 then .error "boom" else .ok 7

/-!
Section: Task graph helpers

`readyNodes`, `isComplete` and `skipDownstream` live in
src/planner/task-graph.ts, which is not among the provided sources; the
definitions below are modelled from the specification (§4.1).  The graph
is represented by its node list; the executor mutates nodes in place,
which the model renders as id-directed updates of the list.
-/

/-- Terminal statuses: done, failed, skipped. -/
def Status.isTerminal : Status → Bool
  | .done => true
  | .failed => true
  | .skipped => true
  | .pending => false
  | .running => false

/-- Lookup of a node by id (first match in declaration order). -/
def findNode (nodes : List TaskNode) (id : String) : Option TaskNode :=
  nodes.find? (fun n => decide (n.id = id))

/-- Modelled from the spec: `isComplete(graph)` — every node is in a
terminal status. -/
def isComplete (nodes : List TaskNode) : Bool :=
  nodes.all (fun n => n.status.isTerminal)

/-- Whether the dependency named `d` exists and is `done`. -/
def depDone (nodes : List TaskNode) (d : String) : Bool :=
  match findNode nodes d with
  | some n => decide (n.status = .done)
  | none => false

/-- Modelled from the spec: `readyNodes(graph)` — nodes whose status is
pending and every dependency's status is done, in node-sequence order. -/
def readyNodes (nodes : List TaskNode) : List TaskNode :=
  nodes.filter (fun n => decide (n.status = .pending) && n.dependsOn.all (depDone nodes))

/-- Modelled from the spec: membership of `target` in the dependency
closure of the node named `src`, with an explicit recursion bound
(`nodes.length` steps suffice on an acyclic graph). -/
def inClosure (nodes : List TaskNode) : Nat → String → String → Bool
  | 0, _, _ => false
  | fuel + 1, src, target =>
    match findNode nodes src with
    | none => false
    | some n => n.dependsOn.any (fun d => decide (d = target) || inClosure nodes fuel d target)

/-- Modelled from the spec: `skipDownstream(graph, failedId)` —
transitively marks every node still pending whose dependency closure
contains `failedId` as skipped. -/
def skipDownstream (nodes : List TaskNode) (failedId : String) : List TaskNode :=
  nodes.map (fun n =>
    if n.status = .pending ∧ inClosure nodes nodes.length n.id failedId = true then
      { n with status := .skipped }
    else n)

/-!
Section: Executor (src/executor/executor.ts, `Executor.execute`)

The per-node execution promise is embedded as an environment mapping the
node id to its settlement, mirroring `Promise.allSettled`: `fulfilled`
carries the `TaskResult` the adapter returned through the normal channel,
`rejected` carries the stringified cause of an unexpected raise.  The
abort signal is a predicate on the iteration counter, checked at the top
of the scheduling loop.  Lifecycle callbacks are recorded as events.
-/

/-- A lifecycle callback invocation observed by the caller. -/
inductive Event where
  | nodeStart (id : String)
  | nodeEnd (id : String) (result : TaskResult)
deriving DecidableEq, Repr

/-- Settlement of one per-node execution promise. -/
inductive Settled where
  | fulfilled (r : TaskResult)
  | rejected (reason : String)

/-- The executor's environment: per-node settlement, the abort signal
sampled per loop iteration, and the resolved `maxConcurrency`. -/
structure Env where
  outcome : String → Settled
  aborted : Nat → Bool
  maxConcurrency : Nat

/-- Executor-visible state: the mutated node list, the `nodeResults`
record and the emitted callback events. -/
structure ExecState where
  nodes : List TaskNode
  nodeResults : List (String × TaskResult)
  events : List Event

/-- In-place update `node.status = s` for the node named `id`. -/
def setStatus (nodes : List TaskNode) (id : String) (s : Status) : List TaskNode :=
  nodes.map (fun n => if n.id = id then { n with status := s } else n)

/-- In-place update `node.result = r` for the node named `id`. -/
def setResult (nodes : List TaskNode) (id : String) (r : TaskResult) : List TaskNode :=
  nodes.map (fun n => if n.id = id then { n with result := some r } else n)

/-- Dispatch of a batch: each `executeNode` synchronously marks its node
running and fires `onNodeStart` before its first suspension point. -/
def dispatchBatch (st : ExecState) (batch : List String) : ExecState :=
  batch.foldl (fun s id =>
    { s with
      nodes := setStatus s.nodes id .running,
      events := s.events ++ [Event.nodeStart id] }) st

/-- Settlement handling for one dispatched node, from the
`for (let i = 0; i < batch.length; i++)` body of `execute`: a fulfilled
`ok` marks done; a fulfilled `error` marks failed and skips downstream;
a rejection synthesizes `error(String(reason))`, marks failed and skips
downstream.  `onNodeEnd` fires exactly once in each branch. -/
def settleOne (env : Env) (st : ExecState) (id : String) : ExecState :=
  match env.outcome id with
  | .fulfilled r =>
    match r with
    | .ok o =>
      { nodes := setStatus (setResult st.nodes id (.ok o)) id .done,
        nodeResults := st.nodeResults ++ [(id, .ok o)],
        events := st.events ++ [Event.nodeEnd id (.ok o)] }
    | .error o =>
      { nodes := skipDownstream (setStatus (setResult st.nodes id (.error o)) id .failed) id,
        nodeResults := st.nodeResults ++ [(id, .error o)],
        events := st.events ++ [Event.nodeEnd id (.error o)] }
  | .rejected reason =>
    { nodes := skipDownstream (setStatus (setResult st.nodes id (.error reason)) id .failed) id,
      nodeResults := st.nodeResults ++ [(id, .error reason)],
      events := st.events ++ [Event.nodeEnd id (.error reason)] }

/-- Settlement of a whole dispatched batch, in batch order. -/
def settleBatch (env : Env) (st : ExecState) (batch : List String) : ExecState :=
  batch.foldl (settleOne env) st

/-- The abort branch's mutation: every still-pending node is skipped. -/
def markPendingSkipped (nodes : List TaskNode) : List TaskNode :=
  nodes.map (fun n => if n.status = .pending then { n with status := .skipped } else n)

/-- The ids of the batch dispatched by one loop iteration: the first
`maxConcurrency` nodes of the ready set. -/
def batchOf (nodes : List TaskNode) (maxConcurrency : Nat) : List String :=
  ((readyNodes nodes).take maxConcurrency).map TaskNode.id

/-- The scheduling loop of `Executor.execute`, with explicit fuel (each
iteration with a nonempty batch settles at least one node, so
`nodes.length + 1` units suffice when `maxConcurrency ≥ 1`). -/
def execLoop (env : Env) : Nat → ExecState → Nat → ExecState
  | 0, st, _ => st
  | fuel + 1, st, iter =>
    if isComplete st.nodes then st
    else if env.aborted iter then { st with nodes := markPendingSkipped st.nodes }
    else
      if (readyNodes st.nodes).isEmpty then st
      else
        execLoop env fuel
          (settleBatch env
            (dispatchBatch st (batchOf st.nodes env.maxConcurrency))
            (batchOf st.nodes env.maxConcurrency))
          (iter + 1)

/-- ExecutionResult: the post-mutation nodes, `success`, and the
node-id → result record (durations are real time and not modelled). -/
structure ExecutionResult where
  nodes : List TaskNode
  success : Bool
  nodeResults : List (String × TaskResult)
  events : List Event

/-- `Executor.execute(graph, opts)`. -/
def execute (env : Env) (nodes : List TaskNode) : ExecutionResult :=
  let final := execLoop env (nodes.length + 1) ⟨nodes, [], []⟩ 0
  { nodes := final.nodes,
    success := final.nodes.all (fun n => decide (n.status = .done)),
    nodeResults := final.nodeResults,
    events := final.events }

/-- The number of nodes currently in status running. -/
def countRunning (nodes : List TaskNode) : Nat :=
  (nodes.filter (fun n => decide (n.status = .running))).length

/-- An environment whose abort signal is already tripped. -/
def abortedEnv : Env :=
  { outcome := fun _ => .fulfilled (.ok "X"), aborted := fun _ => true, maxConcurrency := 1 }

/-- A fresh pending node used in concrete witnesses. -/
def nodeA : TaskNode := { id := "a", task := "task a", dependsOn := [] }

/-- A fresh done node used in concrete witnesses. -/
def nodeBdone : TaskNode := { id := "b", task := "task b", dependsOn := [], status := .done }

/-- A pending node depending on `nodeA`, used in concrete witnesses. -/
def nodeCdep : TaskNode := { id := "c", task := "task c", dependsOn := ["a"] }

/-- An environment that settles everything `ok` and never aborts. -/
def quietEnv : Env :=
  { outcome := fun _ => .fulfilled (.ok "X"), aborted := fun _ => false, maxConcurrency := 1 }

/-- An environment whose per-node executions all reject. -/
def rejectEnv : Env :=
  { outcome := fun _ => .rejected "kaboom", aborted := fun _ => false, maxConcurrency := 2 }

/-- The TaskResult recorded for a settled node: the fulfilled value, or
the synthesized `error(String(reason))` for a rejection. -/
def settledResult (env : Env) (id : String) : TaskResult :=
  match env.outcome id with
  | .fulfilled r => r
  | .rejected reason => .error reason

/-- Loop-top invariant backing C9: pairwise-distinct ids, no node running
between batches, pending and skipped nodes carry no result and no
`nodeResults` entry, and every recorded result names a node whose
dispatch fired `onNodeStart`. -/
def ResultsInv (st : ExecState) : Prop :=
  (st.nodes.map TaskNode.id).Nodup ∧
  (∀ n ∈ st.nodes, n.status ≠ .running) ∧
  (∀ n ∈ st.nodes, n.status = .pending ∨ n.status = .skipped →
    n.result = none ∧ ∀ p ∈ st.nodeResults, p.1 ≠ n.id) ∧
  (∀ p ∈ st.nodeResults, Event.nodeStart p.1 ∈ st.events)

/-- Mid-batch invariant: the not-yet-settled batch suffix is exactly what
may be running; each of its ids names a running, already-started node. -/
def MidInv (st : ExecState) (batch : List String) : Prop :=
  (st.nodes.map TaskNode.id).Nodup ∧
  batch.Nodup ∧
  (∀ n ∈ st.nodes, n.status = .running → n.id ∈ batch) ∧
  (∀ id ∈ batch, ∃ n ∈ st.nodes, n.id = id ∧ n.status = .running) ∧
  (∀ id ∈ batch, Event.nodeStart id ∈ st.events) ∧
  (∀ n ∈ st.nodes, n.status = .pending ∨ n.status = .skipped →
    n.result = none ∧ ∀ p ∈ st.nodeResults, p.1 ≠ n.id) ∧
  (∀ p ∈ st.nodeResults, Event.nodeStart p.1 ∈ st.events)

/-!
Section: Per-node execution (src/executor/executor.ts, `Executor.executeNode`)

The agent registry and the cache key are not in the provided sources and
are modelled from the specification (§4.5, §4.2).  The cache's `get` at
the moment of the call is a function from key to the fresh value, if any;
`JSON`-level state changes are traced: how many times the agent adapter
was invoked, whether the rate limiter was acquired, and the cache writes
performed.  The agent adapter's behaviour is a function from the attempt
number to that attempt's settlement, as in the retry model.
-/

/-- The textual output carried by a TaskResult. -/
def TaskResult.output : TaskResult → String
  | .ok o => o
  | .error o => o

/-- An agent adapter's static part: name and capability tags. -/
structure Agent where
  name : String
  capabilities : List String
deriving DecidableEq, Repr

/-- Modelled from the spec: the agent registry, keeping registration
order. -/
structure AgentRegistry where
  agents : List Agent
deriving DecidableEq, Repr

/-- Modelled from the spec: `registry.pick(selector)` — the adapter whose
name equals the selector, else any adapter whose capabilities include it,
else absent. -/
def AgentRegistry.pick (reg : AgentRegistry) (selector : String) : Option Agent :=
  match reg.agents.find? (fun a => decide (a.name = selector)) with
  | some a => some a
  | none => reg.agents.find? (fun a => decide (selector ∈ a.capabilities))

/-- Agent resolution in `executeNode`: `node.assignTo ? pick : list()[0]`. -/
def resolvedAgent (reg : AgentRegistry) (node : TaskNode) : Option Agent :=
  match node.assignTo with
  | some sel => reg.pick sel
  | none => reg.agents.head?

/-- Modelled from the spec: `Cache.taskKey(task, agentName)` — a
deterministic function of the pair. -/
def taskKey (task agentName : String) : String :=
  task ++ "::" ++ agentName

/-- The configuration slice `executeNode` reads from `getConfig()`. -/
structure ExecConfig where
  cacheEnabled : Bool
  rateLimitEnabled : Bool
  retryBaseDelayMs : Nat
  retryMaxDelayMs : Nat
deriving DecidableEq, Repr

/-- `node.config?.retries ?? 0`. -/
def retriesOf (node : TaskNode) : Nat :=
  match node.config with
  | some c => c.retries.getD 0
  | none => 0

/-- Observable trace of one `executeNode` call: its settled outcome
(`Except.error` models the promise rejecting), the number of agent
invocations, whether the rate limiter was acquired, and the cache writes
performed. -/
structure NodeExecTrace where
  outcome : Except (Option String) TaskResult
  agentCalls : Nat
  rateAcquired : Bool
  cacheWrites : List (String × String)
deriving Repr

/-- The agent invocation of `executeNode`:
`retries > 0 ? withRetry(run, maxAttempts = retries + 1) : run()`. -/
def invokeAgent (cfg : ExecConfig) (agentExec : String → Nat → Except String TaskResult)
    (agentName : String) (retries : Nat) : RetryTrace TaskResult :=
  if 0 < retries then
    withRetry (agentExec agentName) (retries + 1)
      cfg.retryBaseDelayMs cfg.retryMaxDelayMs
  else
    match agentExec agentName 1 with
    | .ok r => ⟨.ok r, [], 1⟩
    | .error e => ⟨.error (some e), [], 1⟩

/-- `Executor.executeNode(node, opts)`: resolve the agent (error result if
none), consult the cache before dispatch, acquire the rate limiter,
invoke the agent — wrapped in `withRetry` with `maxAttempts = retries + 1`
when `node.config.retries > 0`, once otherwise — and store `ok` outputs in
the cache. -/
def executeNode (reg : AgentRegistry) (cfg : ExecConfig)
    (cacheGet : String → Option String)
    (agentExec : String → Nat → Except String TaskResult)
    (node : TaskNode) : NodeExecTrace :=
  match resolvedAgent reg node with
  | none =>
    { outcome := .ok (.error ("No agent available for task \"" ++ node.id ++
        "\" (requested: " ++ node.assignTo.getD "any" ++ ")")),
      agentCalls := 0, rateAcquired := false, cacheWrites := [] }
  | some agent =>
    let cacheKey := taskKey node.task agent.name
    match (if cfg.cacheEnabled then cacheGet cacheKey else none) with
    | some cached =>
      { outcome := .ok (.ok cached), agentCalls := 0,
        rateAcquired := false, cacheWrites := [] }
    | none =>
      let rt := invokeAgent cfg agentExec agent.name (retriesOf node)
      match rt.result with
      | .ok r =>
        { outcome := .ok r, agentCalls := rt.calls,
          rateAcquired := cfg.rateLimitEnabled,
          cacheWrites :=
            match r with
            | .ok o => if cfg.cacheEnabled then [(cacheKey, o)] else []
            | .error _ => [] }
      | .error e =>
        { outcome := .error e, agentCalls := rt.calls,
          rateAcquired := cfg.rateLimitEnabled, cacheWrites := [] }

/-- A concrete agent, registry, config and node for witnesses. -/
def agentX : Agent := { name := "x", capabilities := [] }

/-- A registry holding only `agentX`. -/
def regX : AgentRegistry := { agents := [agentX] }

/-- A config with cache and rate limiting enabled. -/
def cfgOn : ExecConfig :=
  { cacheEnabled := true, rateLimitEnabled := true,
    retryBaseDelayMs := 1, retryMaxDelayMs := 8 }

/-- A cache that holds "cached" under every key. -/
def cacheHitGet : String → Option String := fun _ => some "cached"

/-- An empty cache. -/
def cacheMissGet : String → Option String := fun _ => none

/-- An adapter behaviour that always returns `ok "out"`. -/
def agentExecOk : String → Nat → Except String TaskResult :=
  fun _ _ => .ok (.ok "out")

/-- A pending node with `config.retries = 2` used in witnesses. -/
def nodeR : TaskNode :=
  { id := "r", task := "task r", dependsOn := [], config := some ⟨some 2⟩ }

/-!
Section: Planner response parsing (src/planner/planner.ts, `Planner.parseResponse`)

`parseResponse` strips markdown fences with two `String.replace` calls
(first match each, multiline flags), trims, runs `JSON.parse`, and
validates against `PlannerResponseSchema` (src/schemas.ts).  `JSON.parse`
is a JS builtin, modelled as a parameter producing a `Json` tree;
whitespace is the ASCII subset of the JS `\s` class.  The two regexes are
embedded over character lists:
`/^```(?:json)?\s*\n?/m` (the fence, an optional `json` tag, greedy
whitespace, at a line start) and `/\n?```\s*$/m` (an optional preceding
newline, the fence, greedy whitespace up to a line end).
-/

/-- A parsed JSON value. -/
inductive Json where
  | null
  | bool (b : Bool)
  | num (n : Int)
  | str (s : String)
  | arr (xs : List Json)
  | obj (fields : List (String × Json))

/-- Field projection on a JSON object; absent on other values. -/
def Json.getField : Json → String → Option Json
  | .obj fields, k => (fields.find? (fun p => decide (p.1 = k))).map Prod.snd
  | _, _ => none

/-- The backtick character (0x60). -/
def backtick : Char := Char.ofNat 96

/-- The ASCII whitespace the JS `\s` class matches. -/
def isWs (c : Char) : Bool :=
  c = ' ' || c = '\t' || c = '\n' || c = '\r' || c = Char.ofNat 11 || c = Char.ofNat 12

/-- Length of the maximal leading whitespace run. -/
def countLeadingWs : List Char → Nat
  | [] => 0
  | c :: rest => if isWs c then countLeadingWs rest + 1 else 0

/-- After the opening fence: the optional `json` tag and the greedy
whitespace the pattern `(?:json)?\s*\n?` consumes. -/
def fenceJsonLen : List Char → Nat
  | 'j' :: 's' :: 'o' :: 'n' :: rest => 4 + countLeadingWs rest
  | rest => countLeadingWs rest

/-- Match length of `` ```(?:json)?\s*\n? `` at the head of the input. -/
def matchFence1 : List Char → Option Nat
  | c1 :: c2 :: c3 :: rest =>
    if c1 = backtick ∧ c2 = backtick ∧ c3 = backtick then
      some (3 + fenceJsonLen rest)
    else none
  | _ => none

/-- Index of the last newline among the first `n` characters. -/
def lastNl : List Char → Nat → Option Nat
  | _, 0 => none
  | [], _ => none
  | c :: rest, n + 1 =>
    match lastNl rest n with
    | some k => some (k + 1)
    | none => if c = '\n' then some 0 else none

/-- Match length of `` ```\s*$ `` at the head of the input: the greedy
whitespace backtracks to the last position satisfying the multiline `$`
(end of input or just before a newline). -/
def matchFence2 : List Char → Option Nat
  | c1 :: c2 :: c3 :: rest =>
    if c1 = backtick ∧ c2 = backtick ∧ c3 = backtick then
      if countLeadingWs rest = rest.length then some (3 + countLeadingWs rest)
      else
        match lastNl rest (countLeadingWs rest) with
        | some k => some (3 + k)
        | none => none
    else none
  | _ => none

/-- First replacement: delete the leftmost line-anchored opening fence,
scanning with a line-start flag. -/
def stripFence1Go : Bool → List Char → List Char
  | _, [] => []
  | atStart, c :: rest =>
    if atStart then
      match matchFence1 (c :: rest) with
      | some k => (c :: rest).drop k
      | none => c :: stripFence1Go (decide (c = '\n')) rest
    else c :: stripFence1Go (decide (c = '\n')) rest

/-- Second replacement: delete the leftmost closing fence (with its
optional preceding newline). -/
def stripFence2Go : List Char → List Char
  | [] => []
  | c :: rest =>
    if c = '\n' then
      match matchFence2 rest with
      | some k => rest.drop k
      | none => c :: stripFence2Go rest
    else
      match matchFence2 (c :: rest) with
      | some k => (c :: rest).drop k
      | none => c :: stripFence2Go rest

/-- `trim()`: drop whitespace from both ends. -/
def trimChars (cs : List Char) : List Char :=
  ((cs.dropWhile isWs).reverse.dropWhile isWs).reverse

/-- The `cleaned` string of `parseResponse`: both fence replacements,
then trim. -/
def cleanedResponse (cs : List Char) : List Char :=
  trimChars (stripFence2Go (stripFence1Go true cs))

/-- A canonical opening fence: three backticks, the `json` tag, a
newline. -/
def openFence : List Char :=
  backtick :: backtick :: backtick :: 'j' :: 's' :: 'o' :: 'n' :: '\n' :: []

/-- A canonical closing fence: a newline then three backticks. -/
def closeFence : List Char :=
  '\n' :: backtick :: backtick :: backtick :: []

/-- A node of the planner LLM response after schema validation. -/
structure PlannerNode where
  id : String
  task : String
  dependsOn : List String
  assignTo : Option String
deriving DecidableEq, Repr

/-- The validated planner LLM response. -/
structure PlannerLlmResponse where
  nodes : List PlannerNode
  synthesizerPrompt : Option String
deriving DecidableEq, Repr

/-- String extraction from a JSON value. -/
def Json.asStr : Json → Option String
  | .str s => some s
  | _ => none

/-- String-array extraction from a JSON value. -/
def Json.asStrList : Json → Option (List String)
  | .arr xs => xs.mapM Json.asStr
  | _ => none

/-- `PlannerNodeSchema`: non-empty `id` and `task`, `dependsOn` an array
of strings defaulting to `[]` when absent, `assignTo` an optional
string. -/
def validateNode (j : Json) : Option PlannerNode :=
  match j.getField "id" with
  | some (.str idv) =>
    if idv.isEmpty then none
    else
      match j.getField "task" with
      | some (.str taskv) =>
        if taskv.isEmpty then none
        else
          match (match j.getField "dependsOn" with
                 | none => some []
                 | some dj => dj.asStrList) with
          | none => none
          | some deps =>
            match j.getField "assignTo" with
            | none => some ⟨idv, taskv, deps, none⟩
            | some (.str a) => some ⟨idv, taskv, deps, some a⟩
            | some _ => none
      | _ => none
  | _ => none

/-- `PlannerResponseSchema`: an object with a non-empty `nodes` array of
valid nodes and an optional `synthesizerPrompt` string. -/
def validateResponse (j : Json) : Option PlannerLlmResponse :=
  match j with
  | .obj _ =>
    match j.getField "nodes" with
    | some (.arr xs) =>
      match xs.mapM validateNode with
      | some nodes =>
        if nodes.isEmpty then none
        else
          match j.getField "synthesizerPrompt" with
          | none => some ⟨nodes, none⟩
          | some (.str s) => some ⟨nodes, some s⟩
          | some _ => none
      | none => none
    | _ => none
  | _ => none

/-- Outcome of `Planner.parseResponse`: `ParseError` with the truncated
raw response logged, `ValidationError`, or the parsed response. -/
inductive PlannerOutcome where
  | parseFailed (loggedRaw : String)
  | validationFailed
  | parsed (resp : PlannerLlmResponse)

/-- `Planner.parseResponse(raw)`: strip fences, trim, `JSON.parse` (the
builtin passed as a parameter), then schema validation.  A parse failure
logs `raw.slice(0, 500)` and throws `ParseError`; a shape violation
throws `ValidationError`. -/
def parseResponse (jsonParse : String → Option Json) (raw : String) : PlannerOutcome :=
  let cleaned := String.mk (cleanedResponse raw.data)
  match jsonParse cleaned with
  | none => .parseFailed (String.mk (raw.data.take 500))
  | some j =>
    match validateResponse j with
    | some resp => .parsed resp
    | none => .validationFailed

/-- A run of at least one permitted attempt invokes the operation at
least once. -/
theorem withRetryAux_calls_pos {T : Type} (fn : Nat → Except String T) (b m : Nat)
    (remaining attempt : Nat) (le : Option String) (h : 1 ≤ remaining) :
    1 ≤ (withRetryAux fn b m remaining attempt le).calls := by
  match remaining, h with
  | r + 1, _ =>
    cases hfa : fn attempt with
    | ok v => simp [withRetryAux, hfa]
    | error e =>
      by_cases hr : r = 0 <;> simp [withRetryAux, hfa, hr]

/-- The operation is invoked at most `remaining` more times. -/
theorem withRetryAux_calls_le {T : Type} (fn : Nat → Except String T) (b m : Nat) :
    ∀ (remaining attempt : Nat) (le : Option String),
      (withRetryAux fn b m remaining attempt le).calls ≤ remaining := by
  intro remaining
  induction remaining with
  | zero => intro attempt le; simp [withRetryAux]
  | succ r ih =>
    intro attempt le
    cases hfa : fn attempt with
    | ok v => simp [withRetryAux, hfa]
    | error e =>
      by_cases hr : r = 0
      · simp [withRetryAux, hfa, hr]
      · simpa [withRetryAux, hfa, hr] using ih attempt.succ (some e)

/-- Each delay slept after the i-th failed attempt of the run (0-based,
counting from `attempt`) is exactly `min (b * 2 ^ (attempt - 1 + i)) m`,
and there is one delay per invocation except the last. -/
theorem withRetryAux_delays {T : Type} (fn : Nat → Except String T) (b m : Nat) :
    ∀ (remaining attempt : Nat) (le : Option String), 1 ≤ attempt →
      (withRetryAux fn b m remaining attempt le).delays =
        (List.range ((withRetryAux fn b m remaining attempt le).calls - 1)).map
          (fun i => min (b * 2 ^ (attempt - 1 + i)) m) := by
  intro remaining
  induction remaining with
  | zero => intro attempt le _; simp [withRetryAux]
  | succ r ih =>
    intro attempt le hatt
    cases hfa : fn attempt with
    | ok v => simp [withRetryAux, hfa]
    | error e =>
      by_cases hr : r = 0
      · simp [withRetryAux, hfa, hr]
      · have hpos := withRetryAux_calls_pos fn b m r (attempt + 1) (some e)
          (Nat.one_le_iff_ne_zero.mpr hr)
        have ihh := ih (attempt + 1) (some e) (Nat.le_succ_of_le hatt)
        simp only [withRetryAux, hfa, hr, if_false]
        obtain ⟨c, hc⟩ := Nat.exists_eq_add_of_le hpos
        rw [hc] at ihh ⊢
        simp only [Nat.add_sub_cancel_left, Nat.succ_sub_one, Nat.add_comm 1 c]
        rw [List.range_succ_eq_map, List.map_cons, List.map_map]
        refine List.cons_eq_cons.mpr ⟨by simp, ?_⟩
        have hcc : 1 + c - 1 = c := by omega
        rw [hcc] at ihh
        rw [ihh]
        apply List.map_congr_left
        intro i _
        simp only [Function.comp_apply]
        have hexp : attempt + 1 - 1 + i = attempt - 1 + i.succ := by omega
        rw [hexp]

/-- If the j-th attempt succeeds and all earlier attempts fail, the run
returns that success and stops: exactly `j - attempt + 1` invocations. -/
theorem withRetryAux_ok {T : Type} (fn : Nat → Except String T) (b m : Nat) :
    ∀ (remaining attempt : Nat) (le : Option String) (j : Nat) (v : T),
      attempt ≤ j → j < attempt + remaining → fn j = .ok v →
      (∀ k, attempt ≤ k → k < j → ∃ e, fn k = .error e) →
      (withRetryAux fn b m remaining attempt le).result = .ok v ∧
        (withRetryAux fn b m remaining attempt le).calls = j - attempt + 1 := by
  intro remaining
  induction remaining with
  | zero => intro attempt le j v h1 h2 _ _; omega
  | succ r ih =>
    intro attempt le j v h1 h2 hok herr
    by_cases hj : attempt = j
    · subst hj
      simp [withRetryAux, hok]
    · have hlt : attempt < j := Nat.lt_of_le_of_ne h1 hj
      obtain ⟨e, he⟩ := herr attempt (Nat.le_refl _) hlt
      have hr : r ≠ 0 := by omega
      have ihh := ih (attempt + 1) (some e) j v hlt (by omega) hok
        (fun k hk1 hk2 => herr k (Nat.le_of_succ_le hk1) hk2)
      simp only [withRetryAux, he, hr, if_false]
      refine ⟨ihh.1, ?_⟩
      have h2 := ihh.2
      simp only [h2]
      omega

/-- If every attempt of the run fails, the run throws the error of the
final attempt after exactly `remaining` invocations. -/
theorem withRetryAux_allError {T : Type} (fn : Nat → Except String T) (b m : Nat)
    (e : Nat → String) :
    ∀ (remaining attempt : Nat) (le : Option String), 1 ≤ remaining →
      (∀ k, attempt ≤ k → k < attempt + remaining → fn k = .error (e k)) →
      (withRetryAux fn b m remaining attempt le).result =
          .error (some (e (attempt + remaining - 1))) ∧
        (withRetryAux fn b m remaining attempt le).calls = remaining := by
  intro remaining
  induction remaining with
  | zero => intro attempt le h _; omega
  | succ r ih =>
    intro attempt le _ herr
    have he : fn attempt = .error (e attempt) := herr attempt (Nat.le_refl _) (by omega)
    by_cases hr : r = 0
    · subst hr
      simp [withRetryAux, he]
    · have ihh := ih (attempt + 1) (some (e attempt)) (Nat.one_le_iff_ne_zero.mpr hr)
        (fun k hk1 hk2 => herr k (Nat.le_of_succ_le hk1) (by omega))
      simp only [withRetryAux, he, hr, if_false]
      refine ⟨?_, ?_⟩
      · rw [ihh.1]
        congr 3
        omega
      · rw [ihh.2]

/-- C2: for every operation `fn` and every `maxAttempts = N ≥ 1`,
`withRetry` invokes `fn` at most `N` times; after the i-th failed
non-final attempt it delays exactly `min (baseDelayMs * 2 ^ i) maxDelayMs`
(one delay per invocation except the last); if attempt `j ≤ N` is the
first success it returns that result after exactly `j` invocations; and
if all `N` attempts fail it rejects with the error of the N-th attempt. -/
theorem withRetry_contract {T : Type} (fn : Nat → Except String T)
    (N b m : Nat) (hN : 1 ≤ N) :
    (withRetry fn N b m).calls ≤ N ∧
    (withRetry fn N b m).delays =
      (List.range ((withRetry fn N b m).calls - 1)).map
        (fun i => min (b * 2 ^ i) m) ∧
    (∀ j v, 1 ≤ j → j ≤ N → fn j = .ok v →
      (∀ k, 1 ≤ k → k < j → ∃ e, fn k = .error e) →
      (withRetry fn N b m).result = .ok v ∧ (withRetry fn N b m).calls = j) ∧
    (∀ e : Nat → String, (∀ k, 1 ≤ k → k ≤ N → fn k = .error (e k)) →
      (withRetry fn N b m).result = .error (some (e N)) ∧
        (withRetry fn N b m).calls = N) := by
  refine ⟨withRetryAux_calls_le fn b m N 1 none, ?_, ?_, ?_⟩
  · simpa using withRetryAux_delays fn b m N 1 none (Nat.le_refl 1)
  · intro j v hj1 hjN hok herr
    have h := withRetryAux_ok fn b m N 1 none j v hj1 (by omega) hok
      (fun k hk1 hk2 => herr k hk1 hk2)
    refine ⟨h.1, ?_⟩
    have h2 := h.2
    simp only [withRetry]
    omega
  · intro e herr
    have h := withRetryAux_allError fn b m e N 1 none hN
      (fun k hk1 hk2 => herr k hk1 (by omega))
    simp only [withRetry]
    refine ⟨?_, h.2⟩
    rw [h.1]
    congr 3
    omega

/-- Witness for C2 at `fn = retryProbe`, `N = 2`, base delay 5, cap 100. -/
theorem withRetry_contract_witness :
    (withRetry retryProbe 2 5 100).calls ≤ 2 ∧
    (withRetry retryProbe 2 5 100).delays =
      (List.range ((withRetry retryProbe 2 5 100).calls - 1)).map
        (fun i => min (5 * 2 ^ i) 100) ∧
    (∀ j v, 1 ≤ j → j ≤ 2 → retryProbe j = .ok v →
      (∀ k, 1 ≤ k → k < j → ∃ e, retryProbe k = .error e) →
      (withRetry retryProbe 2 5 100).result = .ok v ∧
        (withRetry retryProbe 2 5 100).calls = j) ∧
    (∀ e : Nat → String, (∀ k, 1 ≤ k → k ≤ 2 → retryProbe k = .error (e k)) →
      (withRetry retryProbe 2 5 100).result = .error (some (e 2)) ∧
        (withRetry retryProbe 2 5 100).calls = 2) :=
  withRetry_contract retryProbe 2 5 100 (by decide)

/-- C10: with `maxAttempts = 0` the loop body of `withRetry` never runs:
the operation is never invoked and the call throws the uninitialized
`lastError`, i.e. `undefined` (modelled as `none`) rather than a
meaningful error. -/
theorem withRetry_zero_attempts {T : Type} (fn : Nat → Except String T) (b m : Nat) :
    withRetry fn 0 b m = ⟨.error none, [], 0⟩ :=
  rfl

/-- C3: for every run of `execute`, the returned ExecutionResult has
`success = true` iff every node in the graph has final status done; in
particular a run ending via the abort branch or the deadlock branch with
a non-done node yields `success = false`. -/
theorem execute_success_iff (env : Env) (nodes : List TaskNode) :
    (execute env nodes).success = true ↔
      ∀ n ∈ (execute env nodes).nodes, n.status = .done := by
  simp [execute, List.all_eq_true]

/-- C6: when the abort signal is observed tripped at the top of the
scheduling loop (graph not yet complete), the loop returns at once with
every still-pending node skipped, nodes in any other status unchanged,
and no further dispatch (no new events, no new results). -/
theorem execute_abort_skips_pending (env : Env) (fuel : Nat) (st : ExecState) (iter : Nat)
    (hnc : isComplete st.nodes = false) (hab : env.aborted iter = true) :
    execLoop env (fuel + 1) st iter = { st with nodes := markPendingSkipped st.nodes } ∧
    (∀ n ∈ st.nodes, n.status = .pending →
      { n with status := Status.skipped } ∈ (execLoop env (fuel + 1) st iter).nodes) ∧
    (∀ n ∈ st.nodes, n.status ≠ .pending → n ∈ (execLoop env (fuel + 1) st iter).nodes) ∧
    (execLoop env (fuel + 1) st iter).events = st.events ∧
    (execLoop env (fuel + 1) st iter).nodeResults = st.nodeResults := by
  have heq : execLoop env (fuel + 1) st iter = { st with nodes := markPendingSkipped st.nodes } := by
    simp [execLoop, hnc, hab]
  refine ⟨heq, ?_, ?_, by rw [heq], by rw [heq]⟩
  · intro n hn hp
    rw [heq]
    exact List.mem_map.mpr ⟨n, hn, by simp [hp]⟩
  · intro n hn hp
    rw [heq]
    exact List.mem_map.mpr ⟨n, hn, by simp [hp]⟩

/-- Witness for C6 on a two-node state with one pending and one done node. -/
theorem execute_abort_skips_pending_witness :
    isComplete (ExecState.nodes ⟨[nodeA, nodeBdone], [], []⟩) = false ∧
    (execLoop abortedEnv 1 ⟨[nodeA, nodeBdone], [], []⟩ 0 =
      { (⟨[nodeA, nodeBdone], [], []⟩ : ExecState) with
          nodes := markPendingSkipped [nodeA, nodeBdone] } ∧
     (∀ n ∈ [nodeA, nodeBdone], n.status = .pending →
        { n with status := Status.skipped } ∈ (execLoop abortedEnv 1 ⟨[nodeA, nodeBdone], [], []⟩ 0).nodes) ∧
     (∀ n ∈ [nodeA, nodeBdone], n.status ≠ .pending →
        n ∈ (execLoop abortedEnv 1 ⟨[nodeA, nodeBdone], [], []⟩ 0).nodes) ∧
     (execLoop abortedEnv 1 ⟨[nodeA, nodeBdone], [], []⟩ 0).events = [] ∧
     (execLoop abortedEnv 1 ⟨[nodeA, nodeBdone], [], []⟩ 0).nodeResults = []) :=
  ⟨by decide, execute_abort_skips_pending abortedEnv 0 ⟨[nodeA, nodeBdone], [], []⟩ 0 (by decide) rfl⟩

/-- Dispatching a batch marks exactly the batch ids running and fires one
`onNodeStart` per batch entry, in order. -/
theorem dispatchBatch_eq (batch : List String) (st : ExecState) :
    dispatchBatch st batch =
      { nodes := st.nodes.map (fun n =>
          if n.id ∈ batch then { n with status := .running } else n),
        nodeResults := st.nodeResults,
        events := st.events ++ batch.map Event.nodeStart } := by
  induction batch generalizing st with
  | nil =>
    simp [dispatchBatch]
  | cons id rest ih =>
    have hstep : dispatchBatch st (id :: rest) =
        dispatchBatch
          { nodes := setStatus st.nodes id .running,
            nodeResults := st.nodeResults,
            events := st.events ++ [Event.nodeStart id] } rest := rfl
    rw [hstep, ih]
    congr 1
    · simp only [setStatus, List.map_map]
      apply List.map_congr_left
      intro n _
      by_cases h : n.id = id
      · by_cases h2 : n.id ∈ rest <;> simp [h, h2, Function.comp]
      · by_cases h2 : n.id ∈ rest <;> simp [h, h2, Function.comp]
    · simp

/-- Origin of a member of a `setStatus` update. -/
theorem setStatus_mem_origin (nodes : List TaskNode) (id : String) (s : Status) :
    ∀ n ∈ setStatus nodes id s, ∃ n0 ∈ nodes,
      (n0.id = id ∧ n = { n0 with status := s }) ∨ (n0.id ≠ id ∧ n = n0) := by
  intro n hn
  obtain ⟨n0, hn0, heq⟩ := List.mem_map.mp hn
  by_cases h : n0.id = id
  · exact ⟨n0, hn0, Or.inl ⟨h, by rw [← heq, if_pos h]⟩⟩
  · exact ⟨n0, hn0, Or.inr ⟨h, by rw [← heq, if_neg h]⟩⟩

/-- Origin of a member of a `setResult` update. -/
theorem setResult_mem_origin (nodes : List TaskNode) (id : String) (r : TaskResult) :
    ∀ n ∈ setResult nodes id r, ∃ n0 ∈ nodes,
      (n0.id = id ∧ n = { n0 with result := some r }) ∨ (n0.id ≠ id ∧ n = n0) := by
  intro n hn
  obtain ⟨n0, hn0, heq⟩ := List.mem_map.mp hn
  by_cases h : n0.id = id
  · exact ⟨n0, hn0, Or.inl ⟨h, by rw [← heq, if_pos h]⟩⟩
  · exact ⟨n0, hn0, Or.inr ⟨h, by rw [← heq, if_neg h]⟩⟩

/-- Origin of a member of a `skipDownstream` update: unchanged or a
previously-pending node marked skipped. -/
theorem skipDownstream_mem_origin (nodes : List TaskNode) (target : String) :
    ∀ n ∈ skipDownstream nodes target, ∃ n0 ∈ nodes,
      n = n0 ∨ (n0.status = .pending ∧ n = { n0 with status := Status.skipped }) := by
  intro n hn
  obtain ⟨n0, hn0, heq⟩ := List.mem_map.mp hn
  by_cases h : n0.status = .pending ∧ inClosure nodes nodes.length n0.id target = true
  · exact ⟨n0, hn0, Or.inr ⟨h.1, by rw [← heq, if_pos h]⟩⟩
  · exact ⟨n0, hn0, Or.inl (by rw [← heq, if_neg h])⟩

/-- A node still running after one settlement was running before it, and
is not the settled node. -/
theorem settleOne_running (env : Env) (st : ExecState) (id : String) :
    ∀ n ∈ (settleOne env st id).nodes, n.status = .running →
      ∃ n0 ∈ st.nodes, n0.status = .running ∧ n0.id = n.id ∧ n0.id ≠ id := by
  have viaSet : ∀ (s : Status) (r : TaskResult), s ≠ .running →
      ∀ n ∈ setStatus (setResult st.nodes id r) id s, n.status = .running →
        ∃ n0 ∈ st.nodes, n0.status = .running ∧ n0.id = n.id ∧ n0.id ≠ id := by
    intro s r hs n hn hrun
    obtain ⟨n1, hn1, hcase1⟩ := setStatus_mem_origin _ id s n hn
    rcases hcase1 with ⟨hid1, heq1⟩ | ⟨hid1, heq1⟩
    · rw [heq1] at hrun
      exact absurd hrun hs
    · obtain ⟨n2, hn2, hcase2⟩ := setResult_mem_origin _ id r n1 hn1
      rcases hcase2 with ⟨hid2, heq2⟩ | ⟨hid2, heq2⟩
      · rw [heq2] at hid1
        exact absurd hid2 hid1
      · rw [heq1, heq2] at hrun ⊢
        rw [heq2] at hid1
        exact ⟨n2, hn2, hrun, rfl, hid1⟩
  have viaSkip : ∀ (r : TaskResult),
      ∀ n ∈ skipDownstream (setStatus (setResult st.nodes id r) id .failed) id,
        n.status = .running →
        ∃ n0 ∈ st.nodes, n0.status = .running ∧ n0.id = n.id ∧ n0.id ≠ id := by
    intro r n hn hrun
    obtain ⟨n1, hn1, hcase⟩ := skipDownstream_mem_origin _ id n hn
    rcases hcase with heq | ⟨_, heq⟩
    · rw [heq] at hrun ⊢
      exact viaSet .failed r (by simp) n1 hn1 hrun
    · rw [heq] at hrun
      simp at hrun
  intro n hn hrun
  rcases houtcome : env.outcome id with r | reason
  · rcases r with o | o
    · simp only [settleOne, houtcome] at hn
      exact viaSet .done (.ok o) (by simp) n hn hrun
    · simp only [settleOne, houtcome] at hn
      exact viaSkip (.error o) n hn hrun
  · simp only [settleOne, houtcome] at hn
    exact viaSkip (.error reason) n hn hrun

/-- After settling a whole batch no node is left running, provided every
running node belonged to the batch. -/
theorem settleBatch_no_running (env : Env) :
    ∀ (batch : List String) (st : ExecState),
      (∀ n ∈ st.nodes, n.status = .running → n.id ∈ batch) →
      ∀ n ∈ (settleBatch env st batch).nodes, n.status ≠ .running := by
  intro batch
  induction batch with
  | nil =>
    intro st h n hn hrun
    exact absurd (h n hn hrun) (List.not_mem_nil _)
  | cons id rest ih =>
    intro st h
    rw [settleBatch, List.foldl_cons]
    rw [show ∀ s' : ExecState, List.foldl (settleOne env) s' rest = settleBatch env s' rest
      from fun _ => rfl]
    apply ih
    intro n hn hrun
    obtain ⟨n0, hn0, hst, hid, hne⟩ := settleOne_running env st id n hn hrun
    have hmem := h n0 hn0 hst
    rcases List.mem_cons.mp hmem with hcase | hcase
    · exact absurd hcase hne
    · rw [← hid]
      exact hcase

/-- With pairwise-distinct node ids, at most `batch.length` nodes can
carry ids from `batch`. -/
theorem filter_memBatch_length_le (nodes : List TaskNode)
    (hids : (nodes.map TaskNode.id).Nodup) (batch : List String) :
    (nodes.filter (fun n => decide (n.id ∈ batch))).length ≤ batch.length := by
  have hsub : ((nodes.filter (fun n => decide (n.id ∈ batch))).map TaskNode.id) ⊆ batch := by
    intro x hx
    obtain ⟨n, hn, rfl⟩ := List.mem_map.mp hx
    have hmem := List.of_mem_filter hn
    simpa using hmem
  have hnd : ((nodes.filter (fun n => decide (n.id ∈ batch))).map TaskNode.id).Nodup :=
    List.Nodup.sublist (List.Sublist.map TaskNode.id (List.filter_sublist nodes)) hids
  have hlen := (hnd.subperm hsub).length_le
  simpa using hlen

/-- C7: each batch is sliced to at most `maxConcurrency` ready nodes, so
at the instant a batch has been dispatched the number of running nodes is
at most `maxConcurrency` (given the loop-top invariant that no node is
running), and after the awaited settlement of the whole batch no node is
running — re-establishing the invariant for the next iteration. -/
theorem execute_running_le_maxConcurrency (env : Env) (st : ExecState)
    (_hM : 1 ≤ env.maxConcurrency)
    (hids : (st.nodes.map TaskNode.id).Nodup)
    (hnr : ∀ n ∈ st.nodes, n.status ≠ .running) :
    countRunning (dispatchBatch st (batchOf st.nodes env.maxConcurrency)).nodes ≤
      env.maxConcurrency ∧
    ∀ n ∈ (settleBatch env (dispatchBatch st (batchOf st.nodes env.maxConcurrency))
        (batchOf st.nodes env.maxConcurrency)).nodes, n.status ≠ .running := by
  have hbatchlen : (batchOf st.nodes env.maxConcurrency).length ≤ env.maxConcurrency := by
    simp only [batchOf, List.length_map, List.length_take]
    exact Nat.min_le_left _ _
  constructor
  · rw [dispatchBatch_eq]
    simp only [countRunning]
    have hcount :
        ((st.nodes.map (fun n =>
            if n.id ∈ batchOf st.nodes env.maxConcurrency then
              { n with status := Status.running } else n)).filter
          (fun n => decide (n.status = .running))).length =
        (st.nodes.filter (fun n =>
          decide (n.id ∈ batchOf st.nodes env.maxConcurrency))).length := by
      rw [← List.countP_eq_length_filter, ← List.countP_eq_length_filter, List.countP_map]
      apply List.countP_congr
      intro n hn
      by_cases h : n.id ∈ batchOf st.nodes env.maxConcurrency
      · simp [Function.comp, h]
      · simp [Function.comp, h, hnr n hn]
    rw [hcount]
    exact le_trans (filter_memBatch_length_le st.nodes hids _) hbatchlen
  · apply settleBatch_no_running
    rw [dispatchBatch_eq]
    intro n hn hrun
    obtain ⟨n0, hn0, heq⟩ := List.mem_map.mp hn
    by_cases h : n0.id ∈ batchOf st.nodes env.maxConcurrency
    · rw [← heq]
      simp [h]
    · rw [← heq, if_neg h] at hrun
      exact absurd hrun (hnr n0 hn0)

/-- Witness for C7 on a fresh two-node state under `quietEnv`. -/
theorem execute_running_le_maxConcurrency_witness :
    countRunning (dispatchBatch ⟨[nodeA, nodeBdone], [], []⟩
        (batchOf [nodeA, nodeBdone] quietEnv.maxConcurrency)).nodes ≤
      quietEnv.maxConcurrency ∧
    ∀ n ∈ (settleBatch quietEnv
        (dispatchBatch ⟨[nodeA, nodeBdone], [], []⟩
          (batchOf [nodeA, nodeBdone] quietEnv.maxConcurrency))
        (batchOf [nodeA, nodeBdone] quietEnv.maxConcurrency)).nodes,
      n.status ≠ .running :=
  execute_running_le_maxConcurrency quietEnv ⟨[nodeA, nodeBdone], [], []⟩
    (by decide) (by decide) (by decide)

/-- Dependency-closure membership only reads node ids and `dependsOn`,
so it is invariant under updates that preserve both. -/
theorem inClosure_map (nodes : List TaskNode) (f : TaskNode → TaskNode)
    (hid : ∀ n, (f n).id = n.id) (hdep : ∀ n, (f n).dependsOn = n.dependsOn) :
    ∀ (fuel : Nat) (src target : String),
      inClosure (nodes.map f) fuel src target = inClosure nodes fuel src target := by
  intro fuel
  induction fuel with
  | zero => intro src target; simp [inClosure]
  | succ k ih =>
    intro src target
    simp only [inClosure]
    have hfind : findNode (nodes.map f) src = Option.map f (findNode nodes src) := by
      rw [findNode, List.find?_map]
      have hpred : ((fun n : TaskNode => decide (n.id = src)) ∘ f) =
          (fun n : TaskNode => decide (n.id = src)) := by
        funext n
        simp [Function.comp, hid]
      rw [hpred]
      rfl
    rw [hfind]
    cases hf : findNode nodes src with
    | none => simp
    | some n =>
      simp only [Option.map_some']
      rw [hdep n]
      simp only [ih]

/-- C1: when a dispatched node's per-node execution promise rejects
(raises outside the `TaskResult` channel), its settlement synthesizes
`error(String(cause))`, marks the node failed, records the synthesized
result in `nodeResults`, fires `onNodeEnd` exactly once for it, skips the
still-pending downstream nodes, and the scheduling loop recurses into its
next iteration instead of terminating with a raised error. -/
theorem execute_rejected_settlement (env : Env) (st : ExecState) (id reason : String)
    (hout : env.outcome id = .rejected reason) :
    (∀ n ∈ (settleOne env st id).nodes, n.id = id →
      n.status = .failed ∧ n.result = some (.error reason)) ∧
    (settleOne env st id).nodeResults = st.nodeResults ++ [(id, .error reason)] ∧
    (settleOne env st id).events = st.events ++ [Event.nodeEnd id (.error reason)] ∧
    (∀ n ∈ st.nodes, n.id ≠ id → n.status = .pending →
      inClosure st.nodes st.nodes.length n.id id = true →
      { n with status := Status.skipped } ∈ (settleOne env st id).nodes) ∧
    (∀ (st0 : ExecState) (fuel iter : Nat),
      isComplete st0.nodes = false → env.aborted iter = false →
      (readyNodes st0.nodes).isEmpty = false →
      execLoop env (fuel + 1) st0 iter =
        execLoop env fuel
          (settleBatch env (dispatchBatch st0 (batchOf st0.nodes env.maxConcurrency))
            (batchOf st0.nodes env.maxConcurrency)) (iter + 1)) := by
  refine ⟨?_, ?_, ?_, ?_, ?_⟩
  · intro n hn hnid
    simp only [settleOne, hout] at hn
    obtain ⟨n1, hn1, hcase⟩ := skipDownstream_mem_origin _ id n hn
    obtain ⟨n2, hn2, hcase2⟩ := setStatus_mem_origin _ id .failed n1 hn1
    rcases hcase2 with ⟨hid2, heq2⟩ | ⟨hid2, heq2⟩
    · obtain ⟨n3, hn3, hcase3⟩ := setResult_mem_origin _ id (.error reason) n2 hn2
      rcases hcase3 with ⟨hid3, heq3⟩ | ⟨hid3, heq3⟩
      · rcases hcase with heq | ⟨hp, heq⟩
        · rw [heq, heq2, heq3]
          exact ⟨rfl, rfl⟩
        · rw [heq2] at hp
          simp at hp
      · rw [heq3] at hid2
        exact absurd hid2 hid3
    · exfalso
      apply hid2
      rcases hcase with heq | ⟨_, heq⟩
      · rw [heq, heq2] at hnid
        exact hnid
      · rw [heq, heq2] at hnid
        exact hnid
  · simp [settleOne, hout]
  · simp [settleOne, hout]
  · intro n hn hnid hp hclo
    simp only [settleOne, hout]
    have hmem1 : n ∈ setResult st.nodes id (.error reason) :=
      List.mem_map.mpr ⟨n, hn, by rw [if_neg hnid]⟩
    have hmem2 : n ∈ setStatus (setResult st.nodes id (.error reason)) id .failed :=
      List.mem_map.mpr ⟨n, hmem1, by rw [if_neg hnid]⟩
    have hsetmap : setStatus (setResult st.nodes id (.error reason)) id .failed =
        st.nodes.map ((fun m => if m.id = id then { m with status := Status.failed } else m) ∘
          (fun m => if m.id = id then { m with result := some (.error reason) } else m)) := by
      simp [setStatus, setResult, List.map_map]
    have hcloeq : inClosure (setStatus (setResult st.nodes id (.error reason)) id .failed)
        (setStatus (setResult st.nodes id (.error reason)) id .failed).length n.id id =
        inClosure st.nodes st.nodes.length n.id id := by
      rw [hsetmap]
      rw [List.length_map]
      apply inClosure_map
      · intro m
        by_cases h : m.id = id <;> simp [Function.comp, h]
      · intro m
        by_cases h : m.id = id <;> simp [Function.comp, h]
    exact List.mem_map.mpr ⟨n, hmem2, by rw [if_pos ⟨hp, by rw [hcloeq]; exact hclo⟩]⟩
  · intro st0 fuel iter hnc hna hready
    simp [execLoop, hnc, hna, hready]

/-- Witness for C1: a single pending node whose execution rejects. -/
theorem execute_rejected_settlement_witness :
    (∀ n ∈ (settleOne rejectEnv ⟨[nodeA], [], []⟩ "a").nodes, n.id = "a" →
      n.status = .failed ∧ n.result = some (.error "kaboom")) ∧
    (settleOne rejectEnv ⟨[nodeA], [], []⟩ "a").nodeResults =
      [] ++ [("a", .error "kaboom")] ∧
    (settleOne rejectEnv ⟨[nodeA], [], []⟩ "a").events =
      [] ++ [Event.nodeEnd "a" (.error "kaboom")] ∧
    (∀ n ∈ [nodeA], n.id ≠ "a" → n.status = .pending →
      inClosure [nodeA] (List.length [nodeA]) n.id "a" = true →
      { n with status := Status.skipped } ∈ (settleOne rejectEnv ⟨[nodeA], [], []⟩ "a").nodes) ∧
    (∀ (st0 : ExecState) (fuel iter : Nat),
      isComplete st0.nodes = false → rejectEnv.aborted iter = false →
      (readyNodes st0.nodes).isEmpty = false →
      execLoop rejectEnv (fuel + 1) st0 iter =
        execLoop rejectEnv fuel
          (settleBatch rejectEnv
            (dispatchBatch st0 (batchOf st0.nodes rejectEnv.maxConcurrency))
            (batchOf st0.nodes rejectEnv.maxConcurrency)) (iter + 1)) :=
  execute_rejected_settlement rejectEnv ⟨[nodeA], [], []⟩ "a" "kaboom" rfl

/-- Mapping an id-preserving transformation leaves the id list intact. -/
theorem map_ids_of_preserve (nodes : List TaskNode) (f : TaskNode → TaskNode)
    (hid : ∀ n, (f n).id = n.id) :
    (nodes.map f).map TaskNode.id = nodes.map TaskNode.id := by
  rw [List.map_map]
  apply List.map_congr_left
  intro n _
  exact hid n

/-- `setStatus` preserves the id list. -/
theorem setStatus_map_ids (nodes : List TaskNode) (id : String) (s : Status) :
    (setStatus nodes id s).map TaskNode.id = nodes.map TaskNode.id :=
  map_ids_of_preserve nodes _ (fun n => by by_cases h : n.id = id <;> simp [h])

/-- `setResult` preserves the id list. -/
theorem setResult_map_ids (nodes : List TaskNode) (id : String) (r : TaskResult) :
    (setResult nodes id r).map TaskNode.id = nodes.map TaskNode.id :=
  map_ids_of_preserve nodes _ (fun n => by by_cases h : n.id = id <;> simp [h])

/-- `skipDownstream` preserves the id list. -/
theorem skipDownstream_map_ids (nodes : List TaskNode) (target : String) :
    (skipDownstream nodes target).map TaskNode.id = nodes.map TaskNode.id :=
  map_ids_of_preserve nodes _ (fun n => by
    by_cases h : n.status = .pending ∧ inClosure nodes nodes.length n.id target = true <;>
      simp [skipDownstream, h])

/-- `markPendingSkipped` preserves the id list. -/
theorem markPendingSkipped_map_ids (nodes : List TaskNode) :
    (markPendingSkipped nodes).map TaskNode.id = nodes.map TaskNode.id :=
  map_ids_of_preserve nodes _ (fun n => by
    by_cases h : n.status = .pending <;> simp [h])

/-- One settlement appends exactly one `onNodeEnd` event. -/
theorem settleOne_events (env : Env) (st : ExecState) (id : String) :
    (settleOne env st id).events =
      st.events ++ [Event.nodeEnd id (settledResult env id)] := by
  rcases h : env.outcome id with r | reason
  · rcases r with o | o <;> simp [settleOne, settledResult, h]
  · simp [settleOne, settledResult, h]

/-- One settlement appends exactly one `nodeResults` entry. -/
theorem settleOne_nodeResults (env : Env) (st : ExecState) (id : String) :
    (settleOne env st id).nodeResults =
      st.nodeResults ++ [(id, settledResult env id)] := by
  rcases h : env.outcome id with r | reason
  · rcases r with o | o <;> simp [settleOne, settledResult, h]
  · simp [settleOne, settledResult, h]

/-- One settlement preserves the id list. -/
theorem settleOne_map_ids (env : Env) (st : ExecState) (id : String) :
    (settleOne env st id).nodes.map TaskNode.id = st.nodes.map TaskNode.id := by
  rcases h : env.outcome id with r | reason
  · rcases r with o | o
    · simp only [settleOne, h]
      rw [setStatus_map_ids, setResult_map_ids]
    · simp only [settleOne, h]
      rw [skipDownstream_map_ids, setStatus_map_ids, setResult_map_ids]
  · simp only [settleOne, h]
    rw [skipDownstream_map_ids, setStatus_map_ids, setResult_map_ids]

/-- A node with a different id and a non-pending status survives one
settlement untouched. -/
theorem settleOne_mem_frame (env : Env) (st : ExecState) (id : String)
    (n : TaskNode) (hn : n ∈ st.nodes) (hnid : n.id ≠ id)
    (hnp : n.status ≠ .pending) : n ∈ (settleOne env st id).nodes := by
  have hset : ∀ (r : TaskResult) (s : Status),
      n ∈ setStatus (setResult st.nodes id r) id s :=
    fun r s => List.mem_map.mpr
      ⟨n, List.mem_map.mpr ⟨n, hn, by rw [if_neg hnid]⟩, by rw [if_neg hnid]⟩
  have hskip : ∀ (r : TaskResult),
      n ∈ skipDownstream (setStatus (setResult st.nodes id r) id .failed) id :=
    fun r => List.mem_map.mpr ⟨n, hset r .failed, by
      rw [if_neg]
      intro hcond
      exact hnp hcond.1⟩
  rcases h : env.outcome id with r | reason
  · rcases r with o | o
    · simp only [settleOne, h]
      exact hset (.ok o) .done
    · simp only [settleOne, h]
      exact hskip (.error o)
  · simp only [settleOne, h]
    exact hskip (.error reason)

/-- Full origin analysis of one settlement: the settled id ends done or
failed; other nodes are untouched or, if pending, possibly skipped. -/
theorem settleOne_origin (env : Env) (st : ExecState) (id : String) :
    ∀ n ∈ (settleOne env st id).nodes, ∃ n0 ∈ st.nodes,
      n.id = n0.id ∧
      ((n0.id = id ∧ (n.status = .done ∨ n.status = .failed)) ∨
       (n0.id ≠ id ∧ n.status = n0.status ∧ n.result = n0.result) ∨
       (n0.id ≠ id ∧ n0.status = .pending ∧ n.status = .skipped ∧
         n.result = n0.result)) := by
  have viaSet : ∀ (r : TaskResult) (s : Status), s = .done ∨ s = .failed →
      ∀ n ∈ setStatus (setResult st.nodes id r) id s, ∃ n0 ∈ st.nodes,
        n.id = n0.id ∧
        ((n0.id = id ∧ (n.status = .done ∨ n.status = .failed)) ∨
         (n0.id ≠ id ∧ n.status = n0.status ∧ n.result = n0.result)) := by
    intro r s hs n hn
    obtain ⟨n1, hn1, hcase1⟩ := setStatus_mem_origin _ id s n hn
    obtain ⟨n2, hn2, hcase2⟩ := setResult_mem_origin _ id r n1 hn1
    rcases hcase1 with ⟨hid1, heq1⟩ | ⟨hid1, heq1⟩
    · rcases hcase2 with ⟨hid2, heq2⟩ | ⟨hid2, heq2⟩
      · refine ⟨n2, hn2, ?_, Or.inl ⟨hid2, ?_⟩⟩
        · rw [heq1, heq2]
        · rw [heq1]
          rcases hs with hs | hs <;> rw [hs] <;> simp
      · rw [heq2] at hid1
        refine ⟨n2, hn2, ?_, Or.inl ⟨hid1, ?_⟩⟩
        · rw [heq1, heq2]
        · rw [heq1]
          rcases hs with hs | hs <;> rw [hs] <;> simp
    · rcases hcase2 with ⟨hid2, heq2⟩ | ⟨hid2, heq2⟩
      · rw [heq2] at hid1
        exact absurd hid2 hid1
      · rw [heq1, heq2]
        rw [heq2] at hid1
        exact ⟨n2, hn2, rfl, Or.inr ⟨hid1, rfl, rfl⟩⟩
  have viaSkip : ∀ (r : TaskResult),
      ∀ n ∈ skipDownstream (setStatus (setResult st.nodes id r) id .failed) id,
        ∃ n0 ∈ st.nodes, n.id = n0.id ∧
          ((n0.id = id ∧ (n.status = .done ∨ n.status = .failed)) ∨
           (n0.id ≠ id ∧ n.status = n0.status ∧ n.result = n0.result) ∨
           (n0.id ≠ id ∧ n0.status = .pending ∧ n.status = .skipped ∧
             n.result = n0.result)) := by
    intro r n hn
    obtain ⟨n1, hn1, hcase⟩ := skipDownstream_mem_origin _ id n hn
    obtain ⟨n0, hn0, hid0, hcase0⟩ := viaSet r .failed (Or.inr rfl) n1 hn1
    rcases hcase with heq | ⟨hp, heq⟩
    · rcases hcase0 with ⟨ha, hb⟩ | ⟨ha, hb, hc⟩
      · exact ⟨n0, hn0, by rw [heq]; exact hid0, Or.inl ⟨ha, by rw [heq]; exact hb⟩⟩
      · exact ⟨n0, hn0, by rw [heq]; exact hid0,
          Or.inr (Or.inl ⟨ha, by rw [heq]; exact hb, by rw [heq]; exact hc⟩)⟩
    · rcases hcase0 with ⟨ha, hb⟩ | ⟨ha, hb, hc⟩
      · rcases hb with hb | hb <;> rw [hb] at hp <;> exact absurd hp (by simp)
      · refine ⟨n0, hn0, ?_, Or.inr (Or.inr ⟨ha, ?_, ?_, ?_⟩)⟩
        · rw [heq]
          exact hid0
        · rw [← hb]
          exact hp
        · rw [heq]
        · rw [heq]
          exact hc
  intro n hn
  rcases h : env.outcome id with r | reason
  · rcases r with o | o
    · simp only [settleOne, h] at hn
      obtain ⟨n0, hn0, hid0, hcase0⟩ := viaSet (.ok o) .done (Or.inl rfl) n hn
      rcases hcase0 with hc | ⟨ha, hb, hc⟩
      · exact ⟨n0, hn0, hid0, Or.inl hc⟩
      · exact ⟨n0, hn0, hid0, Or.inr (Or.inl ⟨ha, hb, hc⟩)⟩
    · simp only [settleOne, h] at hn
      exact viaSkip (.error o) n hn
  · simp only [settleOne, h] at hn
    exact viaSkip (.error reason) n hn

/-- One settlement step keeps the mid-batch invariant for the remaining
batch suffix. -/
theorem midInv_settleOne (env : Env) (st : ExecState) (id : String) (rest : List String)
    (h : MidInv st (id :: rest)) : MidInv (settleOne env st id) rest := by
  obtain ⟨h1, h2, h3, h4, h5, h6, h7⟩ := h
  have hnotin : id ∉ rest := (List.nodup_cons.mp h2).1
  have hrest : rest.Nodup := (List.nodup_cons.mp h2).2
  refine ⟨?_, hrest, ?_, ?_, ?_, ?_, ?_⟩
  · rw [settleOne_map_ids]
    exact h1
  · intro n hn hrun
    obtain ⟨n0, hn0, hst, hid, hne⟩ := settleOne_running env st id n hn hrun
    have hmem := h3 n0 hn0 hst
    rcases List.mem_cons.mp hmem with hcase | hcase
    · exact absurd hcase hne
    · rw [← hid]
      exact hcase
  · intro idr hidr
    obtain ⟨n, hn, hnid, hnrun⟩ := h4 idr (List.mem_cons_of_mem id hidr)
    have hne : n.id ≠ id := by
      rw [hnid]
      intro he
      exact hnotin (he ▸ hidr)
    refine ⟨n, settleOne_mem_frame env st id n hn hne ?_, hnid, hnrun⟩
    rw [hnrun]
    simp
  · intro idr hidr
    rw [settleOne_events]
    exact List.mem_append_left _ (h5 idr (List.mem_cons_of_mem id hidr))
  · intro n hn hps
    obtain ⟨n0, hn0, hid0, hcase⟩ := settleOne_origin env st id n hn
    rcases hcase with ⟨ha, hb⟩ | ⟨ha, hb, hc⟩ | ⟨ha, hb, hc, hd⟩
    · rcases hps with hps | hps <;> rcases hb with hb | hb <;> rw [hps] at hb <;> simp at hb
    · have h0 : n0.status = .pending ∨ n0.status = .skipped := by
        rw [← hb]
        exact hps
      obtain ⟨hres, hnores⟩ := h6 n0 hn0 h0
      refine ⟨by rw [hc]; exact hres, ?_⟩
      intro p hp
      rw [settleOne_nodeResults] at hp
      rcases List.mem_append.mp hp with hp | hp
      · rw [hid0]
        exact hnores p hp
      · rw [List.mem_singleton.mp hp]
        rw [hid0]
        exact fun he => ha he.symm
    · obtain ⟨hres, hnores⟩ := h6 n0 hn0 (Or.inl hb)
      refine ⟨by rw [hd]; exact hres, ?_⟩
      intro p hp
      rw [settleOne_nodeResults] at hp
      rcases List.mem_append.mp hp with hp | hp
      · rw [hid0]
        exact hnores p hp
      · rw [List.mem_singleton.mp hp]
        rw [hid0]
        exact fun he => ha he.symm
  · intro p hp
    rw [settleOne_nodeResults] at hp
    rw [settleOne_events]
    rcases List.mem_append.mp hp with hp | hp
    · exact List.mem_append_left _ (h7 p hp)
    · rw [List.mem_singleton.mp hp]
      exact List.mem_append_left _ (h5 id (List.mem_cons_self id rest))

/-- Settling the whole batch turns the mid-batch invariant into the
loop-top invariant. -/
theorem settleBatch_resultsInv (env : Env) :
    ∀ (batch : List String) (st : ExecState), MidInv st batch →
      ResultsInv (settleBatch env st batch) := by
  intro batch
  induction batch with
  | nil =>
    intro st h
    obtain ⟨h1, _, h3, _, _, h6, h7⟩ := h
    exact ⟨h1, fun n hn hrun => absurd (h3 n hn hrun) (List.not_mem_nil _), h6, h7⟩
  | cons id rest ih =>
    intro st h
    exact ih _ (midInv_settleOne env st id rest h)

/-- Dispatching the ready batch establishes the mid-batch invariant. -/
theorem dispatch_midInv (st : ExecState) (M : Nat) (h : ResultsInv st) :
    MidInv (dispatchBatch st (batchOf st.nodes M)) (batchOf st.nodes M) := by
  obtain ⟨h1, h2, h3, h4⟩ := h
  have hbsub : (((readyNodes st.nodes).take M).map TaskNode.id).Sublist
      (st.nodes.map TaskNode.id) :=
    List.Sublist.map TaskNode.id
      ((List.take_sublist M _).trans (List.filter_sublist st.nodes))
  rw [dispatchBatch_eq]
  refine ⟨?_, ?_, ?_, ?_, ?_, ?_, ?_⟩
  · rw [map_ids_of_preserve]
    · exact h1
    · intro n
      by_cases hmem : n.id ∈ batchOf st.nodes M <;> simp [hmem]
  · exact List.Nodup.sublist hbsub h1
  · intro n hn hrun
    obtain ⟨n0, hn0, heq⟩ := List.mem_map.mp hn
    by_cases hmem : n0.id ∈ batchOf st.nodes M
    · rw [← heq, if_pos hmem]
      exact hmem
    · rw [← heq, if_neg hmem] at hrun
      exact absurd hrun (h2 n0 hn0)
  · intro idb hidb
    obtain ⟨m, hm, hmid⟩ := List.mem_map.mp hidb
    have hmready : m ∈ readyNodes st.nodes := (List.take_sublist M _).subset hm
    have hmst : m ∈ st.nodes := (List.filter_sublist st.nodes).subset hmready
    have hmbatch : m.id ∈ batchOf st.nodes M := List.mem_map.mpr ⟨m, hm, rfl⟩
    refine ⟨{ m with status := Status.running },
      List.mem_map.mpr ⟨m, hmst, by rw [if_pos hmbatch]⟩, hmid, rfl⟩
  · intro idb hidb
    exact List.mem_append_right _ (List.mem_map.mpr ⟨idb, hidb, rfl⟩)
  · intro n hn hps
    obtain ⟨n0, hn0, heq⟩ := List.mem_map.mp hn
    by_cases hmem : n0.id ∈ batchOf st.nodes M
    · rw [← heq, if_pos hmem] at hps
      rcases hps with hps | hps <;> simp at hps
    · rw [← heq, if_neg hmem] at hps ⊢
      exact h3 n0 hn0 hps
  · intro p hp
    exact List.mem_append_left _ (h4 p hp)

/-- The abort branch's skip of pending nodes keeps the loop-top
invariant. -/
theorem markPendingSkipped_resultsInv (st : ExecState) (h : ResultsInv st) :
    ResultsInv { st with nodes := markPendingSkipped st.nodes } := by
  obtain ⟨h1, h2, h3, h4⟩ := h
  refine ⟨?_, ?_, ?_, h4⟩
  · rw [markPendingSkipped_map_ids]
    exact h1
  · intro n hn hrun
    obtain ⟨n0, hn0, heq⟩ := List.mem_map.mp hn
    by_cases hp : n0.status = .pending
    · rw [← heq, if_pos hp] at hrun
      simp at hrun
    · rw [← heq, if_neg hp] at hrun
      exact absurd hrun (h2 n0 hn0)
  · intro n hn hps
    obtain ⟨n0, hn0, heq⟩ := List.mem_map.mp hn
    by_cases hp : n0.status = .pending
    · rw [← heq, if_pos hp]
      exact h3 n0 hn0 (Or.inl hp)
    · rw [← heq, if_neg hp] at hps ⊢
      exact h3 n0 hn0 hps

/-- The scheduling loop preserves the loop-top invariant. -/
theorem execLoop_resultsInv (env : Env) :
    ∀ (fuel : Nat) (st : ExecState) (iter : Nat), ResultsInv st →
      ResultsInv (execLoop env fuel st iter) := by
  intro fuel
  induction fuel with
  | zero =>
    intro st iter h
    exact h
  | succ k ih =>
    intro st iter h
    by_cases hc : isComplete st.nodes = true
    · simp only [execLoop, hc, if_true]
      exact h
    · by_cases ha : env.aborted iter = true
      · simp only [execLoop, hc, ha, if_true, if_false, Bool.false_eq_true]
        exact markPendingSkipped_resultsInv st h
      · by_cases hr : (readyNodes st.nodes).isEmpty = true
        · simp only [execLoop, hc, ha, hr, if_true, if_false, Bool.false_eq_true]
          exact h
        · simp only [execLoop, hc, ha, hr, if_false, Bool.false_eq_true]
          exact ih _ (iter + 1)
            (settleBatch_resultsInv env _ _ (dispatch_midInv st env.maxConcurrency h))

/-- C9: on a fresh graph, a node whose final status is skipped (via
`skipDownstream` or the abort branch) never receives a `nodeResults`
entry and its result field remains absent; every `nodeResults` entry
belongs to a node that was actually dispatched (its `onNodeStart`
fired). -/
theorem execute_skipped_no_result (env : Env) (nodes : List TaskNode)
    (hids : (nodes.map TaskNode.id).Nodup)
    (hfresh : ∀ n ∈ nodes, n.status = .pending ∧ n.result = none) :
    (∀ n ∈ (execute env nodes).nodes, n.status = .skipped →
      n.result = none ∧ ∀ p ∈ (execute env nodes).nodeResults, p.1 ≠ n.id) ∧
    (∀ p ∈ (execute env nodes).nodeResults,
      Event.nodeStart p.1 ∈ (execute env nodes).events) := by
  have hinit : ResultsInv ⟨nodes, [], []⟩ := by
    refine ⟨hids, ?_, ?_, ?_⟩
    · intro n hn
      rw [(hfresh n hn).1]
      simp
    · intro n hn _
      exact ⟨(hfresh n hn).2, fun p hp => absurd hp (List.not_mem_nil _)⟩
    · intro p hp
      exact absurd hp (List.not_mem_nil _)
  have hfin := execLoop_resultsInv env (nodes.length + 1) ⟨nodes, [], []⟩ 0 hinit
  obtain ⟨_, _, h3, h4⟩ := hfin
  constructor
  · intro n hn hskip
    exact h3 n hn (Or.inr hskip)
  · intro p hp
    exact h4 p hp

/-- Witness for C9: node "a" rejects, its dependant "c" ends skipped. -/
theorem execute_skipped_no_result_witness :
    (∀ n ∈ (execute rejectEnv [nodeA, nodeCdep]).nodes, n.status = .skipped →
      n.result = none ∧
        ∀ p ∈ (execute rejectEnv [nodeA, nodeCdep]).nodeResults, p.1 ≠ n.id) ∧
    (∀ p ∈ (execute rejectEnv [nodeA, nodeCdep]).nodeResults,
      Event.nodeStart p.1 ∈ (execute rejectEnv [nodeA, nodeCdep]).events) :=
  execute_skipped_no_result rejectEnv [nodeA, nodeCdep] (by decide) (by decide)

/-- C4: with the cache enabled and a fresh entry for
`taskKey(task, agent.name)`, `executeNode` returns `ok(cachedValue)` at
once — no rate-limiter acquisition, no agent invocation, no cache write;
and in every call of `executeNode`, a cache write happens only for an
`ok` result and stores exactly its output — `error` results are never
stored. -/
theorem executeNode_cache_contract (reg : AgentRegistry) (cfg : ExecConfig)
    (cacheGet : String → Option String)
    (agentExec : String → Nat → Except String TaskResult)
    (node : TaskNode) (agent : Agent) (v : String)
    (hagent : resolvedAgent reg node = some agent)
    (hen : cfg.cacheEnabled = true)
    (hhit : cacheGet (taskKey node.task agent.name) = some v) :
    executeNode reg cfg cacheGet agentExec node =
      { outcome := .ok (.ok v), agentCalls := 0,
        rateAcquired := false, cacheWrites := [] } ∧
    (∀ (cg : String → Option String)
        (ae : String → Nat → Except String TaskResult) (nd : TaskNode),
      ∀ kv ∈ (executeNode reg cfg cg ae nd).cacheWrites,
        (executeNode reg cfg cg ae nd).outcome = .ok (.ok kv.2)) := by
  constructor
  · simp [executeNode, hagent, hen, hhit]
  · intro cg ae nd kv hkv
    rcases ha : resolvedAgent reg nd with _ | a
    · simp [executeNode, ha] at hkv
    · rcases hc : (if cfg.cacheEnabled then cg (taskKey nd.task a.name) else none)
        with _ | cv
      · rcases hrt : (invokeAgent cfg ae a.name (retriesOf nd)).result with e | r
        · simp [executeNode, ha, hc, hrt] at hkv
        · rcases r with o | o
          · simp only [executeNode, ha, hc, hrt] at hkv ⊢
            by_cases hce : cfg.cacheEnabled = true
            · simp only [hce, if_true] at hkv
              rw [List.mem_singleton.mp hkv]
            · simp [hce] at hkv
          · simp [executeNode, ha, hc, hrt] at hkv
      · simp [executeNode, ha, hc] at hkv

/-- Witness for C4 with a single-agent registry, cache enabled, and a
cache holding "cached" under every key. -/
theorem executeNode_cache_contract_witness :
    executeNode regX cfgOn cacheHitGet agentExecOk nodeR =
      { outcome := .ok (.ok "cached"), agentCalls := 0,
        rateAcquired := false, cacheWrites := [] } ∧
    (∀ (cg : String → Option String)
        (ae : String → Nat → Except String TaskResult) (nd : TaskNode),
      ∀ kv ∈ (executeNode regX cfgOn cg ae nd).cacheWrites,
        (executeNode regX cfgOn cg ae nd).outcome = .ok (.ok kv.2)) :=
  executeNode_cache_contract regX cfgOn cacheHitGet agentExecOk nodeR agentX
    "cached" rfl rfl rfl

/-- C5: past the cache check, a node with `retries` 0 or absent invokes
the agent exactly once with no retry wrapping; a node with
`retries = N > 0` is run through `withRetry` with `maxAttempts = N + 1`:
its outcome and attempt count are exactly the retry helper's, hence at
most `N + 1` total attempts. -/
theorem executeNode_retry_wrapping (reg : AgentRegistry) (cfg : ExecConfig)
    (cacheGet : String → Option String)
    (agentExec : String → Nat → Except String TaskResult)
    (node : TaskNode) (agent : Agent)
    (hagent : resolvedAgent reg node = some agent)
    (hmiss : (if cfg.cacheEnabled then cacheGet (taskKey node.task agent.name)
        else none) = none) :
    (retriesOf node = 0 →
      (executeNode reg cfg cacheGet agentExec node).agentCalls = 1) ∧
    (∀ N, retriesOf node = N → 0 < N →
      (executeNode reg cfg cacheGet agentExec node).outcome =
        (withRetry (agentExec agent.name) (N + 1)
          cfg.retryBaseDelayMs cfg.retryMaxDelayMs).result ∧
      (executeNode reg cfg cacheGet agentExec node).agentCalls =
        (withRetry (agentExec agent.name) (N + 1)
          cfg.retryBaseDelayMs cfg.retryMaxDelayMs).calls ∧
      (executeNode reg cfg cacheGet agentExec node).agentCalls ≤ N + 1) := by
  constructor
  · intro hz
    rcases hrt : (invokeAgent cfg agentExec agent.name (retriesOf node)).result with e | r
    · have hcalls : (invokeAgent cfg agentExec agent.name (retriesOf node)).calls = 1 := by
        rw [hz] at hrt ⊢
        simp only [invokeAgent, Nat.lt_irrefl, if_false] at hrt ⊢
        rcases hae : agentExec agent.name 1 with e1 | r1 <;> simp [hae]
      simp [executeNode, hagent, hmiss, hrt, hcalls]
    · have hcalls : (invokeAgent cfg agentExec agent.name (retriesOf node)).calls = 1 := by
        rw [hz] at hrt ⊢
        simp only [invokeAgent, Nat.lt_irrefl, if_false] at hrt ⊢
        rcases hae : agentExec agent.name 1 with e1 | r1 <;> simp [hae]
      rcases r with o | o <;> simp [executeNode, hagent, hmiss, hrt, hcalls]
  · intro N hN hpos
    have hinv : invokeAgent cfg agentExec agent.name (retriesOf node) =
        withRetry (agentExec agent.name) (N + 1)
          cfg.retryBaseDelayMs cfg.retryMaxDelayMs := by
      rw [hN]
      simp [invokeAgent, hpos]
    have hle : (withRetry (agentExec agent.name) (N + 1)
        cfg.retryBaseDelayMs cfg.retryMaxDelayMs).calls ≤ N + 1 := by
      exact Orchestrator.withRetryAux_calls_le (agentExec agent.name)
        cfg.retryBaseDelayMs cfg.retryMaxDelayMs (N + 1) 1 none
    rcases hrt : (invokeAgent cfg agentExec agent.name (retriesOf node)).result with e | r
    · rw [hinv] at hrt
      refine ⟨?_, ?_, ?_⟩ <;>
        simp [executeNode, hagent, hmiss, hinv, hrt, hle]
    · rw [hinv] at hrt
      rcases r with o | o <;>
        (refine ⟨?_, ?_, ?_⟩ <;> simp [executeNode, hagent, hmiss, hinv, hrt, hle])

/-- Witness for C5 at `nodeR` (`config.retries = 2`): three total
attempts at most, exactly the retry helper's trace with
`maxAttempts = 3`. -/
theorem executeNode_retry_wrapping_witness :
    (retriesOf nodeR = 0 →
      (executeNode regX cfgOn cacheMissGet agentExecOk nodeR).agentCalls = 1) ∧
    (∀ N, retriesOf nodeR = N → 0 < N →
      (executeNode regX cfgOn cacheMissGet agentExecOk nodeR).outcome =
        (withRetry (agentExecOk agentX.name) (N + 1)
          cfgOn.retryBaseDelayMs cfgOn.retryMaxDelayMs).result ∧
      (executeNode regX cfgOn cacheMissGet agentExecOk nodeR).agentCalls =
        (withRetry (agentExecOk agentX.name) (N + 1)
          cfgOn.retryBaseDelayMs cfgOn.retryMaxDelayMs).calls ∧
      (executeNode regX cfgOn cacheMissGet agentExecOk nodeR).agentCalls ≤ N + 1) :=
  executeNode_retry_wrapping regX cfgOn cacheMissGet agentExecOk nodeR agentX rfl rfl

/-- The leading whitespace run is no longer than the input. -/
theorem countLeadingWs_le (cs : List Char) : countLeadingWs cs ≤ cs.length := by
  induction cs with
  | nil => simp [countLeadingWs]
  | cons c rest ih =>
    by_cases h : isWs c = true
    · simp only [countLeadingWs, h, if_true, List.length_cons]
      omega
    · simp [countLeadingWs, h]

/-- The `(?:json)?\s*` consumption is no longer than the input. -/
theorem fenceJsonLen_le (cs : List Char) : fenceJsonLen cs ≤ cs.length := by
  unfold fenceJsonLen
  split
  · next rest =>
    have := countLeadingWs_le rest
    simp
    omega
  · next => exact countLeadingWs_le _

/-- A fence-1 match is nonempty and no longer than the input. -/
theorem matchFence1_le (cs : List Char) (k : Nat) (h : matchFence1 cs = some k) :
    0 < k ∧ k ≤ cs.length := by
  unfold matchFence1 at h
  split at h
  · next c1 c2 c3 rest =>
    split at h
    · have hf := fenceJsonLen_le rest
      injection h with h
      subst h
      simp
      omega
    · exact absurd h (by simp)
  · exact absurd h (by simp)

/-- `lastNl` returns an index below its bound. -/
theorem lastNl_lt (cs : List Char) (n : Nat) (k : Nat) (h : lastNl cs n = some k) :
    k < n := by
  induction cs generalizing n k with
  | nil =>
    cases n with
    | zero => simp [lastNl] at h
    | succ m => simp [lastNl] at h
  | cons c rest ih =>
    cases n with
    | zero => simp [lastNl] at h
    | succ m =>
      simp only [lastNl] at h
      cases hl : lastNl rest m with
      | some k2 =>
        rw [hl] at h
        injection h with h
        subst h
        have := ih m k2 hl
        omega
      | none =>
        rw [hl] at h
        by_cases hc : c = '\n'
        · rw [if_pos hc] at h
          injection h with h
          omega
        · rw [if_neg hc] at h
          exact absurd h (by simp)

/-- A fence-2 match is nonempty and no longer than the input. -/
theorem matchFence2_le (cs : List Char) (k : Nat) (h : matchFence2 cs = some k) :
    0 < k ∧ k ≤ cs.length := by
  unfold matchFence2 at h
  split at h
  · next c1 c2 c3 rest =>
    split at h
    · split at h
      · next hws =>
        injection h with h
        subst h
        have := countLeadingWs_le rest
        simp
        omega
      · split at h
        · next k2 hl =>
          injection h with h
          subst h
          have h1 := lastNl_lt rest (countLeadingWs rest) k2 hl
          have h2 := countLeadingWs_le rest
          simp
          omega
        · exact absurd h (by simp)
    · exact absurd h (by simp)
  · exact absurd h (by simp)

/-- No fence-1 match starts at a non-backtick character. -/
theorem matchFence1_none (cs : List Char)
    (h : ∀ c, cs.head? = some c → c ≠ backtick) : matchFence1 cs = none := by
  unfold matchFence1
  split
  · next c1 c2 c3 rest =>
    rw [if_neg]
    intro hcond
    exact h c1 rfl hcond.1
  · rfl

/-- No fence-2 match starts at a non-backtick character. -/
theorem matchFence2_none (cs : List Char)
    (h : ∀ c, cs.head? = some c → c ≠ backtick) : matchFence2 cs = none := by
  unfold matchFence2
  split
  · next c1 c2 c3 rest =>
    rw [if_neg]
    intro hcond
    exact h c1 rfl hcond.1
  · rfl

/-- The first replacement deletes nothing from a backtick-free input. -/
theorem stripFence1Go_id (cs : List Char) (h : ∀ c ∈ cs, c ≠ backtick) :
    ∀ b, stripFence1Go b cs = cs := by
  induction cs with
  | nil => intro b; rfl
  | cons c rest ih =>
    intro b
    have hm : matchFence1 (c :: rest) = none :=
      matchFence1_none _ (fun x hx => by
        injection hx with hx
        exact hx ▸ h c (List.mem_cons_self c rest))
    have ihr := ih (fun x hx => h x (List.mem_cons_of_mem c hx))
    cases b with
    | true => simp [stripFence1Go, hm, ihr]
    | false => simp [stripFence1Go, ihr]

/-- The second replacement deletes nothing from a backtick-free input. -/
theorem stripFence2Go_id (cs : List Char) (h : ∀ c ∈ cs, c ≠ backtick) :
    stripFence2Go cs = cs := by
  induction cs with
  | nil => rfl
  | cons c rest ih =>
    have hm1 : matchFence2 (c :: rest) = none :=
      matchFence2_none _ (fun x hx => by
        injection hx with hx
        exact hx ▸ h c (List.mem_cons_self c rest))
    have hm2 : matchFence2 rest = none := by
      apply matchFence2_none
      intro x hx
      cases rest with
      | nil => simp at hx
      | cons r rs =>
        injection hx with hx
        exact hx ▸ h r (List.mem_cons_of_mem c (List.mem_cons_self r rs))
    have ihr := ih (fun x hx => h x (List.mem_cons_of_mem c hx))
    by_cases hc : c = '\n'
    · simp [stripFence2Go, hc, hm2, ihr]
    · simp [stripFence2Go, hc, hm1, hm2, ihr]

/-- The first replacement removes at most one substring, and that
substring is a fence-1 match in place. -/
theorem stripFence1Go_split (cs : List Char) :
    ∀ b, stripFence1Go b cs = cs ∨
      ∃ pre mid post, cs = pre ++ mid ++ post ∧
        stripFence1Go b cs = pre ++ post ∧
        matchFence1 (mid ++ post) = some mid.length ∧ mid ≠ [] := by
  induction cs with
  | nil => intro b; left; rfl
  | cons c rest ih =>
    intro b
    cases b with
    | false =>
      rcases ih (decide (c = '\n')) with hid | ⟨pre, mid, post, he, hs, hm, hne⟩
      · left
        simp [stripFence1Go, hid]
      · right
        exact ⟨c :: pre, mid, post, by simp [he], by simp [stripFence1Go, hs], hm, hne⟩
    | true =>
      cases hm : matchFence1 (c :: rest) with
      | some k =>
        right
        obtain ⟨hk0, hkle⟩ := matchFence1_le _ _ hm
        refine ⟨[], (c :: rest).take k, (c :: rest).drop k, ?_, ?_, ?_, ?_⟩
        · simp
        · simp [stripFence1Go, hm]
        · rw [List.take_append_drop, List.length_take]
          rw [hm]
          congr 1
          omega
        · intro hnil
          have : ((c :: rest).take k).length = 0 := by rw [hnil]; rfl
          rw [List.length_take] at this
          omega
      | none =>
        rcases ih (decide (c = '\n')) with hid | ⟨pre, mid, post, he, hs, hmm, hne⟩
        · left
          simp [stripFence1Go, hm, hid]
        · right
          exact ⟨c :: pre, mid, post, by simp [he],
            by simp [stripFence1Go, hm, hs], hmm, hne⟩

/-- The second replacement removes at most one substring: a fence-2 match
in place, possibly with its preceding newline. -/
theorem stripFence2Go_split (cs : List Char) :
    stripFence2Go cs = cs ∨
      ∃ pre mid post, cs = pre ++ mid ++ post ∧
        stripFence2Go cs = pre ++ post ∧ mid ≠ [] ∧
        ((∃ mid2, mid = '\n' :: mid2 ∧ matchFence2 (mid2 ++ post) = some mid2.length) ∨
          matchFence2 (mid ++ post) = some mid.length) := by
  induction cs with
  | nil => left; rfl
  | cons c rest ih =>
    by_cases hc : c = '\n'
    · cases hm : matchFence2 rest with
      | some k =>
        right
        obtain ⟨hk0, hkle⟩ := matchFence2_le _ _ hm
        refine ⟨[], c :: rest.take k, rest.drop k, ?_, ?_, ?_, ?_⟩
        · simp
        · simp [stripFence2Go, hc, hm]
        · simp
        · left
          refine ⟨rest.take k, by rw [hc], ?_⟩
          rw [List.take_append_drop, List.length_take]
          rw [hm]
          congr 1
          omega
      | none =>
        rcases ih with hid | ⟨pre, mid, post, he, hs, hne, hcond⟩
        · left
          simp [stripFence2Go, hc, hm, hid]
        · right
          exact ⟨c :: pre, mid, post, by simp [he],
            by simp [stripFence2Go, hc, hm, hs], hne, hcond⟩
    · cases hm : matchFence2 (c :: rest) with
      | some k =>
        right
        obtain ⟨hk0, hkle⟩ := matchFence2_le _ _ hm
        refine ⟨[], (c :: rest).take k, (c :: rest).drop k, ?_, ?_, ?_, ?_⟩
        · simp
        · simp [stripFence2Go, hc, hm]
        · intro hnil
          have : ((c :: rest).take k).length = 0 := by rw [hnil]; rfl
          rw [List.length_take] at this
          omega
        · right
          rw [List.take_append_drop, List.length_take]
          rw [hm]
          congr 1
          omega
      | none =>
        rcases ih with hid | ⟨pre, mid, post, he, hs, hne, hcond⟩
        · left
          simp [stripFence2Go, hc, hm, hid]
        · right
          exact ⟨c :: pre, mid, post, by simp [he],
            by simp [stripFence2Go, hc, hm, hs], hne, hcond⟩

/-- The first replacement deletes exactly a canonical opening fence when
the body starts with a non-whitespace character. -/
theorem stripFence1Go_openFence (b : Char) (bs tail : List Char) (hw : isWs b = false) :
    stripFence1Go true (openFence ++ (b :: bs) ++ tail) = (b :: bs) ++ tail := by
  have h0 : countLeadingWs (b :: (bs ++ tail)) = 0 := by
    simp [countLeadingWs, hw]
  have hnl : countLeadingWs ('\n' :: (b :: (bs ++ tail))) = 1 := by
    have hws : isWs '\n' = true := by decide
    simp [countLeadingWs, hws, hw]
  have hjson : fenceJsonLen ('j' :: 's' :: 'o' :: 'n' :: '\n' :: (b :: (bs ++ tail))) =
      4 + 1 := by
    simp [fenceJsonLen, hnl]
  have hm : matchFence1 (backtick :: backtick :: backtick ::
      'j' :: 's' :: 'o' :: 'n' :: '\n' :: (b :: (bs ++ tail))) = some 8 := by
    simp [matchFence1, hjson]
  show (match matchFence1 (backtick :: backtick :: backtick ::
      'j' :: 's' :: 'o' :: 'n' :: '\n' :: (b :: (bs ++ tail))) with
    | some k => (backtick :: backtick :: backtick ::
        'j' :: 's' :: 'o' :: 'n' :: '\n' :: (b :: (bs ++ tail))).drop k
    | none => backtick :: stripFence1Go (decide (backtick = '\n'))
        (backtick :: backtick :: 'j' :: 's' :: 'o' :: 'n' :: '\n' :: (b :: (bs ++ tail)))) =
    b :: (bs ++ tail)
  rw [hm]
  simp

/-- The second replacement deletes exactly a canonical closing fence from
a backtick-free body. -/
theorem stripFence2Go_closeFence (body : List Char) (h : ∀ c ∈ body, c ≠ backtick) :
    stripFence2Go (body ++ closeFence) = body := by
  induction body with
  | nil =>
    have hm : matchFence2 (backtick :: backtick :: backtick :: []) = some 3 := by
      simp [matchFence2, countLeadingWs]
    simp [closeFence, stripFence2Go, hm]
  | cons c rest ih =>
    have ihr := ih (fun x hx => h x (List.mem_cons_of_mem c hx))
    by_cases hc : c = '\n'
    · have hm : matchFence2 (rest ++ closeFence) = none := by
        apply matchFence2_none
        intro x hx
        cases rest with
        | nil =>
          simp [closeFence] at hx
          rw [← hx]
          decide
        | cons r rs =>
          injection hx with hx
          exact hx ▸ h r (List.mem_cons_of_mem c (List.mem_cons_self r rs))
      show stripFence2Go (c :: (rest ++ closeFence)) = c :: rest
      rw [stripFence2Go]
      simp [hc, hm, ihr]
    · have hm1 : matchFence2 (c :: (rest ++ closeFence)) = none := by
        apply matchFence2_none
        intro x hx
        injection hx with hx
        exact hx ▸ h c (List.mem_cons_self c rest)
      show stripFence2Go (c :: (rest ++ closeFence)) = c :: rest
      rw [stripFence2Go]
      simp [hc, hm1, ihr]

/-- Cleaning a canonically fenced backtick-free body strips exactly the
two fences and trims. -/
theorem cleanedResponse_canonical (b : Char) (bs : List Char)
    (h : ∀ c ∈ b :: bs, c ≠ backtick) (hw : isWs b = false) :
    cleanedResponse (openFence ++ (b :: bs) ++ closeFence) = trimChars (b :: bs) := by
  unfold cleanedResponse
  rw [stripFence1Go_openFence b bs closeFence hw]
  rw [stripFence2Go_closeFence (b :: bs) h]

/-- Cleaning a backtick-free response only trims it. -/
theorem cleanedResponse_id (s : List Char) (h : ∀ c ∈ s, c ≠ backtick) :
    cleanedResponse s = trimChars s := by
  unfold cleanedResponse
  rw [stripFence1Go_id s h true, stripFence2Go_id s h]

/-- C8: `parseResponse` strips at most one (line-anchored) opening and
one closing fenced-code marker — each replacement deletes at most one
in-place fence match, exactly the two fences on a canonically fenced
body, and nothing on a fence-free response — trims, and parses as JSON;
a parse failure yields `PARSE_FAILED` logging a prefix of the raw
response of at most 500 characters; a shape violation (empty `nodes`
array, empty `id` or `task`) yields `VALIDATION_FAILED`, with `dependsOn`
defaulting to `[]` when absent and `assignTo` optional. -/
theorem planner_parseResponse_contract :
    (∀ (jp : String → Option Json) (raw : String),
      jp (String.mk (cleanedResponse raw.data)) = none →
      parseResponse jp raw = .parseFailed (String.mk (raw.data.take 500)) ∧
        (raw.data.take 500).length ≤ 500) ∧
    (∀ (jp : String → Option Json) (raw : String) (j : Json),
      jp (String.mk (cleanedResponse raw.data)) = some j →
      (validateResponse j = none → parseResponse jp raw = .validationFailed) ∧
      (∀ resp, validateResponse j = some resp → parseResponse jp raw = .parsed resp)) ∧
    validateResponse (Json.obj [("nodes", Json.arr [])]) = none ∧
    (∀ j : Json, j.getField "id" = some (.str "") → validateNode j = none) ∧
    (∀ (j : Json) (idv : String), j.getField "id" = some (.str idv) → idv ≠ "" →
      j.getField "task" = some (.str "") → validateNode j = none) ∧
    (∀ (j : Json) (idv taskv : String),
      j.getField "id" = some (.str idv) → idv ≠ "" →
      j.getField "task" = some (.str taskv) → taskv ≠ "" →
      j.getField "dependsOn" = none → j.getField "assignTo" = none →
      validateNode j = some ⟨idv, taskv, [], none⟩) ∧
    (∀ cs : List Char, stripFence1Go true cs = cs ∨
      ∃ pre mid post, cs = pre ++ mid ++ post ∧
        stripFence1Go true cs = pre ++ post ∧
        matchFence1 (mid ++ post) = some mid.length ∧ mid ≠ []) ∧
    (∀ cs : List Char, stripFence2Go cs = cs ∨
      ∃ pre mid post, cs = pre ++ mid ++ post ∧
        stripFence2Go cs = pre ++ post ∧ mid ≠ [] ∧
        ((∃ mid2, mid = '\n' :: mid2 ∧ matchFence2 (mid2 ++ post) = some mid2.length) ∨
          matchFence2 (mid ++ post) = some mid.length)) ∧
    (∀ (b : Char) (bs : List Char), (∀ c ∈ b :: bs, c ≠ backtick) → isWs b = false →
      cleanedResponse (openFence ++ (b :: bs) ++ closeFence) = trimChars (b :: bs)) ∧
    (∀ s : List Char, (∀ c ∈ s, c ≠ backtick) → cleanedResponse s = trimChars s) := by
  refine ⟨?_, ?_, ?_, ?_, ?_, ?_, ?_, ?_, ?_, ?_⟩
  · intro jp raw h
    constructor
    · simp [parseResponse, h]
    · rw [List.length_take]
      exact Nat.min_le_left _ _
  · intro jp raw j h1
    constructor
    · intro h2
      simp [parseResponse, h1, h2]
    · intro resp h2
      simp [parseResponse, h1, h2]
  · rfl
  · intro j h
    have hemp : ("" : String).isEmpty = true := by decide
    simp [validateNode, h, hemp]
  · intro j idv hid hne htask
    have hemp : ("" : String).isEmpty = true := by decide
    have hie : idv.isEmpty = false := by
      cases he : String.isEmpty _
      · rfl
      · exact absurd ((String.isEmpty_iff _).mp he) hne
    simp [validateNode, hid, htask, hie, hemp]
  · intro j idv taskv hid hne1 htask hne2 hdep hassign
    have hie1 : idv.isEmpty = false := by
      cases he : String.isEmpty _
      · rfl
      · exact absurd ((String.isEmpty_iff _).mp he) hne1
    have hie2 : taskv.isEmpty = false := by
      cases he : String.isEmpty _
      · rfl
      · exact absurd ((String.isEmpty_iff _).mp he) hne2
    simp [validateNode, hid, htask, hie1, hie2, hdep, hassign]
  · intro cs
    exact stripFence1Go_split cs true
  · intro cs
    exact stripFence2Go_split cs
  · intro b bs h hw
    exact cleanedResponse_canonical b bs h hw
  · intro s h
    exact cleanedResponse_id s h

end Orchestrator
